import Mathlib

/-!
Verification of the trading-history completeness reconciler of the
polygon_project repository: the calendar-date model used by the repair
scripts, the monthly chunk walker, the partition filename scheme and its
regex parser, the major and minor repair pipelines, the file-size anomaly
detector, the error logger, the liquidity classifier and the
unique-filepath helper.

Machine dates (Python `datetime` values truncated to day precision) are
embedded as a `Date` structure of plain naturals.  All comparisons in the
scripts are lexicographic on (year, month, day); for valid dates this
order coincides with the order of `Date.key`, an injective linearisation,
which is what the definitions below compare.
-/

structure Date where
  year : Nat
  month : Nat
  day : Nat
deriving DecidableEq

/-- Gregorian leap-year rule, as `calendar.isleap` / `dateutil` use it. -/
def isLeap (y : Nat) : Bool :=
  y % 4 == 0 && (y % 100 != 0 || y % 400 == 0)

/-- Number of days of month `m` of year `y` (months are 1-based). -/
def daysInMonth (y m : Nat) : Nat :=
  if m = 2 then (if isLeap y then 29 else 28)
  else if m = 4 ∨ m = 6 ∨ m = 9 ∨ m = 11 then 30
  else 31

/-- Injective linearisation of valid dates; on valid dates `key` order is
exactly the lexicographic (year, month, day) order of Python datetimes,
because `month * 32 + day ≤ 12 * 32 + 31 < 416`. -/
def Date.key (d : Date) : Nat :=
  d.year * 416 + d.month * 32 + d.day

/-- The dates representable by a Python `datetime` (day precision). -/
def Date.Valid (d : Date) : Prop :=
  1 ≤ d.month ∧ d.month ≤ 12 ∧ 1 ≤ d.day ∧ d.day ≤ daysInMonth d.year d.month

instance (d : Date) : Decidable d.Valid := by
  unfold Date.Valid; infer_instance

/-- `d.replace(day=1)` on a datetime. -/
def Date.firstOfMonth (d : Date) : Date :=
  ⟨d.year, d.month, 1⟩

/-- `d + relativedelta(months=n)` (dateutil semantics: shift the month
index, clamp the day to the length of the target month). -/
def Date.addMonths (d : Date) (n : Nat) : Date :=
  let t := d.year * 12 + (d.month - 1) + n
  let y := t / 12
  let m := t % 12 + 1
  ⟨y, m, min d.day (daysInMonth y m)⟩

/-- `d - relativedelta(months=n)` (dateutil semantics). -/
def Date.subMonths (d : Date) (n : Nat) : Date :=
  let t := d.year * 12 + (d.month - 1) - n
  let y := t / 12
  let m := t % 12 + 1
  ⟨y, m, min d.day (daysInMonth y m)⟩

/-- `d - relativedelta(days=1)` (dateutil semantics). -/
def Date.subDay (d : Date) : Date :=
  if 1 < d.day then ⟨d.year, d.month, d.day - 1⟩
  else if 1 < d.month then ⟨d.year, d.month - 1, daysInMonth d.year (d.month - 1)⟩
  else ⟨d.year - 1, 12, 31⟩

/-- `current_date.replace(day=1) + relativedelta(months=1)`: the loop
step of every monthly chunk walk in the repository. -/
def Date.nextMonth (d : Date) : Date :=
  d.firstOfMonth.addMonths 1

/-- `chunk_start + relativedelta(months=1) - relativedelta(days=1)`
where `chunk_start = current_date.replace(day=1)`: the unclipped chunk
end computed by the walkers. -/
def Date.monthEnd (d : Date) : Date :=
  d.firstOfMonth.addMonths 1 |>.subDay

/-- Month counter used to bound the chunk walk. -/
def monthIdx (d : Date) : Nat :=
  d.year * 12 + d.month

/-- One iteration of the monthly chunk loop shared by
`stocks_trading_history._process_trading_history_job`,
`scan_and_repair_trading_history` and `repair_minor_trading_history`:
`chunk_start = current_date.replace(day=1)` clipped up to `minStart`,
`chunk_end = chunk_start + relativedelta(months=1) - relativedelta(days=1)`
clipped down to `today`. -/
def chunkOf (minStart today current : Date) : Date × Date :=
  let cs0 := current.firstOfMonth
  let cs := if cs0.key < minStart.key then minStart else cs0
  let ce0 := current.monthEnd
  let ce := if today.key < ce0.key then today else ce0
  (cs, ce)

/-- The `while current_date <= today` loop of the chunk walkers, with an
explicit fuel argument; the fuel chosen in `walkChunks` is an upper bound
on the number of months between the two dates, so for valid dates it
never runs out (`walkAux_spec`). -/
def walkAux (minStart today : Date) : Nat → Date → List (Date × Date)
  | 0, _ => []
  | fuel + 1, current =>
    if current.key ≤ today.key then
      chunkOf minStart today current :: walkAux minStart today fuel current.nextMonth
    else []

/-- All monthly chunks produced for the range `[minStart, today]`. -/
def walkChunks (minStart today : Date) : List (Date × Date) :=
  walkAux minStart today (monthIdx today + 1 - monthIdx minStart) minStart

/-- The decimal digit characters. -/
def digitChar (n : Nat) : Char :=
  match n with
  | 0 => '0' | 1 => '1' | 2 => '2' | 3 => '3' | 4 => '4'
  | 5 => '5' | 6 => '6' | 7 => '7' | 8 => '8' | _ => '9'

/-- Decimal rendering, one recursion step per digit; the fuel only has
to dominate the number of digits and is consumed structurally so that
terms reduce inside the kernel. -/
def natDigitsAux : Nat → Nat → List Char
  | 0, n => [digitChar n]
  | fuel + 1, n =>
    if n < 10 then [digitChar n]
    else natDigitsAux fuel (n / 10) ++ [digitChar (n % 10)]

/-- Decimal rendering of a natural number, most significant digit first. -/
def natDigits (n : Nat) : List Char :=
  natDigitsAux n n

/-- Numeric value of a digit character. -/
def digVal (c : Char) : Nat := c.toNat - 48

/-- Value of a decimal digit string (leading zeros allowed). -/
def digitsVal (cs : List Char) : Nat :=
  cs.foldl (fun a c => a * 10 + digVal c) 0

/-- Two-digit zero-padded rendering, as `%m` / `%d` of `strftime`. -/
def pad2 (n : Nat) : List Char :=
  if n < 10 then ['0', digitChar n] else natDigits n

/-- `d.strftime('%Y-%m-%d')` for years rendered with four digits. -/
def fmtDate (d : Date) : String :=
  ⟨natDigits d.year ++ '-' :: (pad2 d.month ++ '-' :: pad2 d.day)⟩

/-- The filename built by `_save_trading_history_data` and by the repair
scripts: ticker, underscore, fidelity folder, underscore, start,
`_to_`, end, plus the
extension (the extension string contains its dot). -/
def partitionFilename (ticker fidelityFolder : String) (s e : Date) (ext : String) : String :=
  ticker ++ "_" ++ fidelityFolder ++ "_" ++ fmtDate s ++ "_to_" ++ fmtDate e ++ ext

def startsWithL : List Char → List Char → Bool
  | [], _ => true
  | _ :: _, [] => false
  | p :: ps, c :: cs => p == c && startsWithL ps cs

def dropLit : List Char → List Char → Option (List Char)
  | [], cs => some cs
  | _ :: _, [] => none
  | p :: ps, c :: cs => if p = c then dropLit ps cs else none

/-- The fixed-width date group of the partition filename
regex: consume ten characters of date shape (four digits, a hyphen, two
digits, a hyphen, two digits), return them and the rest. -/
def matchDate : List Char → Option (String × List Char)
  | a :: b :: c :: d :: s1 :: e :: f :: s2 :: g :: h :: rest =>
    if s1 = '-' ∧ s2 = '-' ∧ a.isDigit ∧ b.isDigit ∧ c.isDigit ∧ d.isDigit ∧
        e.isDigit ∧ f.isDigit ∧ g.isDigit ∧ h.isDigit then
      some (⟨[a, b, c, d, s1, e, f, s2, g, h]⟩, rest)
    else none
  | _ => none

/-- The deterministic tail of the partition filename regex after the
two lazy groups: a ten-character date, the literal `_to_`, a second
ten-character date, a dot and the parquet-or-csv alternation (`re.match` does not anchor the end, so
anything may follow the extension). -/
def matchTail (cs : List Char) : Option (String × String × String) :=
  match matchDate cs with
  | none => none
  | some (d1, r1) =>
    match dropLit ['_', 't', 'o', '_'] r1 with
    | none => none
    | some r2 =>
      match matchDate r2 with
      | none => none
      | some (d2, r3) =>
        match r3 with
        | '.' :: r4 =>
          if startsWithL ['p', 'a', 'r', 'q', 'u', 'e', 't'] r4 then some (d1, d2, "parquet")
          else if startsWithL ['c', 's', 'v'] r4 then some (d1, d2, "csv")
          else none
        | _ => none

/-- Lazy matching of the second group `(.+?)_` of the filename regex:
the group takes the shortest non-empty prefix that is followed by an
underscore after which the deterministic tail matches; on failure the
underscore is absorbed into the group and the scan goes on.  The dot of
the pattern matches any character except a newline, so reaching a
newline fails the whole match: the group is a contiguous run that can
never span it. -/
def scanG2 : List Char → List Char → Option (String × String × String × String)
  | _, [] => none
  | acc, c :: rest =>
    if c = '_' then
      if acc.isEmpty then scanG2 ('_' :: acc) rest
      else
        match matchTail rest with
        | some (d1, d2, e) => some (⟨acc.reverse⟩, d1, d2, e)
        | none => scanG2 ('_' :: acc) rest
    else if c = '\n' then none
    else scanG2 (c :: acc) rest

/-- Lazy matching of the first group `(.+?)_` of the filename regex;
as with the second group, a newline can never be part of the group, and
since `re.match` anchors the group at the start of the string, reaching
a newline fails the whole match. -/
def scanG1 : List Char → List Char → Option (String × String × String × String × String)
  | _, [] => none
  | acc, c :: rest =>
    if c = '_' then
      if acc.isEmpty then scanG1 ('_' :: acc) rest
      else
        match scanG2 [] rest with
        | some (g2, d1, d2, e) => some (⟨acc.reverse⟩, g2, d1, d2, e)
        | none => scanG1 ('_' :: acc) rest
    else if c = '\n' then none
    else scanG1 (c :: acc) rest

/-- The anchored match of the partition filename pattern compiled in `trading_history_repair_major.py` / `trading_history_repair_minor.py` /
`anomaly_detector.py`: the five captured groups
(ticker, fidelity, start string, end string, extension). -/
def parsePartitionFilename (s : String) :
    Option (String × String × String × String × String) :=
  scanG1 [] s.data

/-- `datetime.strptime(s, '%Y-%m-%d')`: ten characters of date shape
whose fields form a valid calendar date (strptime validates month and
day-of-month ranges, and rejects year zero). -/
def parseDateStr (s : String) : Option Date :=
  match s.data with
  | [a, b, c, d, s1, e, f, s2, g, h] =>
    if s1 = '-' ∧ s2 = '-' ∧ a.isDigit ∧ b.isDigit ∧ c.isDigit ∧ d.isDigit ∧
        e.isDigit ∧ f.isDigit ∧ g.isDigit ∧ h.isDigit then
      if 1 ≤ digitsVal [a, b, c, d] ∧
          (⟨digitsVal [a, b, c, d], digitsVal [e, f], digitsVal [g, h]⟩ : Date).Valid then
        some ⟨digitsVal [a, b, c, d], digitsVal [e, f], digitsVal [g, h]⟩
      else none
    else none
  | _ => none

/-- Group 3 of the filename pattern parsed as a date: the per-file step
of the `min_start_date` loops of both repair scripts. -/
def extractStart (f : String) : Option Date :=
  match parsePartitionFilename f with
  | none => none
  | some (_, _, d1, _, _) => parseDateStr d1

/-- A file is collected by the discovery scans iff the filename pattern
matches. -/
def matchesPattern (f : String) : Bool :=
  (parsePartitionFilename f).isSome

/-- The files of one job directory that the discovery stage collects. -/
def discoveredFiles (disk : List String) : List String :=
  disk.filter matchesPattern

/-- The `min_start_date` fold of the repair scripts, from a general
initial value: start at the initial date, parse each filename with the
pattern and `strptime`, keep the smaller date; a file that fails to
parse raises and aborts the validation of the job (`none`). -/
def minStartFrom (m : Date) (files : List String) : Option Date :=
  files.foldl
    (fun acc f =>
      match acc, extractStart f with
      | some m0, some d => some (if d.key < m0.key then d else m0)
      | _, _ => none)
    (some m)

/-- `min_start_date` as both repair scripts compute it: the fold starts
from `today`. -/
def minStartDate (today : Date) (files : List String) : Option Date :=
  minStartFrom today files

/-- Split a character list at spaces (the behaviour of Python
`str.split` on single spaces, enough for the modelled fidelity
strings). -/
def splitSpAux : List Char → List Char → List (List Char)
  | acc, [] => [acc.reverse]
  | acc, c :: rest =>
    if c = ' ' then acc.reverse :: splitSpAux [] rest else splitSpAux (c :: acc) rest

/-- Modelled from the spec: `workflow_helpers.parse_historical_fidelity`
is called by both repair scripts and by the trading-history workflow but
is not defined anywhere in the repository source.  Per the spec (section
4.3, section 6 and the glossary) a fidelity string is a timespan word
such as "tick" or "day", or a multiplier and a timespan such as
"1 minute"; the call returns the (multiplier, timespan) pair, and the
only fact the gap detectors use is the timespan: `day` fidelity gives
extension `.csv`, every other fidelity `.parquet`. -/
def parse_historical_fidelity (fidelity : String) : Nat × String :=
  match splitSpAux [] fidelity.data with
  | [t] => (1, ⟨t⟩)
  | [n, t] => (digitsVal n, ⟨t⟩)
  | _ => (1, "")

/-- `fidelity.replace(" ", "-")`: for a one-character pattern the Python
replace is exactly a character map. -/
def hyphenate (s : String) : String :=
  ⟨s.data.map (fun c => if c = ' ' then '-' else c)⟩

/-- The expected monthly partition filename both repair scripts build:
ticker, underscore, fidelity folder, underscore, chunk start, `_to_`,
chunk end, file extension, with the fidelity folder obtained by
replacing spaces with hyphens and the extension
chosen from the fidelity timespan. -/
def expectedFilename (ticker fid : String) (cs ce : Date) : String :=
  let fidelityFolder := hyphenate fid
  let fileExtension := if (parse_historical_fidelity fid).2 ≠ "day" then ".parquet" else ".csv"
  ticker ++ "_" ++ fidelityFolder ++ "_" ++ fmtDate cs ++ "_to_" ++ fmtDate ce ++ fileExtension

/-- All expected monthly partition filenames of one job. -/
def expectedNames (ticker fid : String) (ms today : Date) : List String :=
  (walkChunks ms today).map (fun c => expectedFilename ticker fid c.1 c.2)

/-- The completeness verdict of the major-repair month walk: the job
directory is modelled as the list of filenames it holds, so the
`os.path.exists(expected_filepath)` check is membership in that list;
`is_job_complete` stays true iff every expected filename is present. -/
def isJobComplete (disk : List String) (ticker fid : String) (ms today : Date) : Bool :=
  (expectedNames ticker fid ms today).all (fun en => decide (en ∈ disk))

/-- `relativedelta(today, min_start).years * 12 + months`: dateutil
computes the largest whole number of months `m` with
`min_start + relativedelta(months=m) <= today` (the month difference,
decremented once if the day-clamped landing date overshoots). -/
def relTotalMonths (d1 d2 : Date) : Nat :=
  let base := (d1.year * 12 + d1.month) - (d2.year * 12 + d2.month)
  if d1.key < (d2.addMonths base).key then base - 1 else base

inductive RepairAction where
  | deleteFile : String → RepairAction
  | refetch : Date → Date → RepairAction
deriving DecidableEq

/-- The major-repair pipeline for one discovered job
(`scan_and_repair_trading_history`, stages 2 and 3): compute
`min_start_date`, walk the expected months; if any expected file is
missing, delete every discovered file of the job and then re-download
`duration_months = relativedelta(today, min_start).years * 12 + months + 1`
months, i.e. the range `[today - relativedelta(months=duration_months), today]`.
A complete job produces no actions. -/
def majorRepairJob (disk : List String) (ticker fid : String) (today : Date) :
    List RepairAction :=
  match minStartDate today (discoveredFiles disk) with
  | none => []
  | some ms =>
    if isJobComplete disk ticker fid ms today then []
    else
      let durationMonths := relTotalMonths today ms + 1
      (discoveredFiles disk).map RepairAction.deleteFile
        ++ [RepairAction.refetch (today.subMonths durationMonths) today]

/-- The missing-month list of the minor-repair pipeline
(`repair_minor_trading_history`, stage 2): the chunks of the month walk
whose expected filename is not among the discovered filenames
(`if expected_filename not in filenames`). -/
def minorMissing (disk : List String) (ticker fid : String) (today : Date) :
    List (Date × Date) :=
  match minStartDate today (discoveredFiles disk) with
  | none => []
  | some ms =>
    (walkChunks ms today).filter
      (fun c => decide (expectedFilename ticker fid c.1 c.2 ∉ discoveredFiles disk))

/-- The actions of the minor-repair pipeline (stage 3): one targeted
re-download per missing chunk, and nothing else — in particular no
deletions. -/
def minorRepairJob (disk : List String) (ticker fid : String) (today : Date) :
    List RepairAction :=
  (minorMissing disk ticker fid today).map (fun c => RepairAction.refetch c.1 c.2)

/-- The (start, end) date range embedded in a partition filename
(groups 3 and 4 of the pattern, parsed as dates). -/
def parsedRange (f : String) : Option (Date × Date) :=
  match parsePartitionFilename f with
  | none => none
  | some (_, _, d1, d2, _) =>
    match parseDateStr d1, parseDateStr d2 with
    | some s, some e => some (s, e)
    | _, _ => none

/-- The January partition of the end-to-end repair scenario of the spec:
job directory for ticker ABC at fidelity 1 minute. -/
def janFile : String := "ABC_1-minute_2024-01-01_to_2024-01-31.parquet"

/-- The March partition of the end-to-end repair scenario (the scenario
day is 2024-03-15, so the March partition is clipped to that day). -/
def marFile : String := "ABC_1-minute_2024-03-01_to_2024-03-15.parquet"

/-- The job directory of the end-to-end scenario: January and March are
present, February is missing. -/
def scenarioDisk : List String := [janFile, marFile]

/-- The fixed run day used for the end-to-end scenario. -/
def scenarioToday : Date := ⟨2024, 3, 15⟩

/-- A partition file that covers January 2024 but carries the csv
extension inside a 1-minute job, whose expected extension is parquet:
the filename matches the discovery pattern, so the file is discovered,
while the expected-name check of the repair walks does not see it. -/
def minorCsvFile : String := "ABC_1-minute_2024-01-01_to_2024-01-31.csv"

/-- The neighbour comparison size of
`anomaly_detector.detect_trading_history_anomalies`: the mean of the
two chronological neighbours when both exist, the single neighbour at
the ends, nothing for a lone file.  Byte sizes are modelled as exact
rationals (the script divides in floating point). -/
def comparisonSize (sizes : List ℚ) (i : Nat) : Option ℚ :=
  let prev := if 0 < i then some (sizes.getD (i - 1) 0) else none
  let next := if i + 1 < sizes.length then some (sizes.getD (i + 1) 0) else none
  match prev, next with
  | some p, some nx => some ((p + nx) / 2)
  | some p, none => some p
  | none, some nx => some nx
  | none, none => none

/-- Whether position `i` of the chronologically sorted size list is
flagged: skip when the comparison size is missing or zero, otherwise
flag iff the percentage difference strictly exceeds the threshold. -/
def isFlagged (threshold : ℚ) (sizes : List ℚ) (i : Nat) : Bool :=
  match comparisonSize sizes i with
  | none => false
  | some c =>
    if c = 0 then false
    else decide ((c - sizes.getD i 0) / c * 100 > threshold)

/-- The flagged indices of one job: jobs with fewer than two files are
skipped, otherwise every index is examined. -/
def flaggedIdx (threshold : ℚ) (sizes : List ℚ) : List Nat :=
  if sizes.length < 2 then []
  else (List.range sizes.length).filter (isFlagged threshold sizes)

/-- One row of the in-memory error collection of
`error_logger.log_error` (the wall-clock log timestamp is irrelevant to
the claims and omitted). -/
structure ErrorRecord where
  ticker : String
  fidelity : String
  chunkStart : String
  chunkEnd : String
  reason : String
  scriptName : String
deriving DecidableEq

/-- The module state of `project_core.error_logger`: the `_ERRORS`
list, the `_IS_REGISTERED` flag, and how many times the
`save_errors_to_csv` handler has been handed to `atexit.register`
(each registered handler runs exactly once at normal interpreter
exit, so this count is the number of CSV flushes at exit). -/
structure LoggerState where
  errors : List ErrorRecord
  isRegistered : Bool
  handlerRegistrations : Nat
deriving DecidableEq

/-- The state at interpreter start. -/
def initLogger : LoggerState := ⟨[], false, 0⟩

/-- `error_logger.log_error`: append the failure to `_ERRORS`. -/
def log_error (st : LoggerState) (e : ErrorRecord) : LoggerState :=
  { st with errors := st.errors ++ [e] }

/-- `error_logger.register_error_handler`: register the CSV flush with
`atexit` only when `_IS_REGISTERED` is still false. -/
def register_error_handler (st : LoggerState) : LoggerState :=
  if st.isRegistered then st
  else { st with isRegistered := true,
                 handlerRegistrations := st.handlerRegistrations + 1 }

/-- The calls a process can make into the error logger. -/
inductive LoggerOp where
  | logErr : ErrorRecord → LoggerOp
  | register : LoggerOp
deriving DecidableEq

/-- Run a sequence of logger calls. -/
def runOps : LoggerState → List LoggerOp → LoggerState
  | st, [] => st
  | st, LoggerOp.logErr e :: rest => runOps (log_error st e) rest
  | st, LoggerOp.register :: rest => runOps (register_error_handler st) rest

/-- The failures passed to `log_error` in a call sequence, in order. -/
def loggedOf (ops : List LoggerOp) : List ErrorRecord :=
  ops.filterMap (fun op =>
    match op with
    | LoggerOp.logErr e => some e
    | LoggerOp.register => none)

/-- `liquidity_screener.classify_liquidity` over the three metrics
(ADDV, ADNT, median time between trades); a missing metric is `none`.
The tier thresholds are the module constants `TIERS`.  Metric values are
modelled as exact rationals. -/
def classify_liquidity (addv adnt mtbt : Option ℚ) : Nat × String :=
  match addv, adnt, mtbt with
  | some a, some n, some m =>
    if a = 0 ∨ n = 0 then (99, "Error/Insufficient Data")
    else if 25000000 ≤ a ∧ 5000 ≤ n ∧ m ≤ 30 then (1, "Keep (High)")
    else if 5000000 ≤ a ∧ 1000 ≤ n ∧ m ≤ 300 then (2, "Keep (Moderate)")
    else (3, "Remove (Illiquid)")
  | _, _, _ => (99, "Error/Insufficient Data")

/-- The conditions of the liquidity tiers as predicates on the metric
record: a record is degenerate when a metric is missing or ADDV or ADNT
is zero. -/
def metricsBad (addv adnt mtbt : Option ℚ) : Prop :=
  addv = none ∨ adnt = none ∨ mtbt = none ∨ addv = some 0 ∨ adnt = some 0

/-- Tier-1 thresholds of `TIERS`. -/
def tier1Cond (addv adnt mtbt : Option ℚ) : Prop :=
  ∃ a n m, addv = some a ∧ adnt = some n ∧ mtbt = some m ∧
    25000000 ≤ a ∧ 5000 ≤ n ∧ m ≤ 30

/-- Tier-2 thresholds of `TIERS`. -/
def tier2Cond (addv adnt mtbt : Option ℚ) : Prop :=
  ∃ a n m, addv = some a ∧ adnt = some n ∧ mtbt = some m ∧
    5000000 ≤ a ∧ 1000 ≤ n ∧ m ≤ 300

/-- `os.path.split`: cut at the last slash; the tail is everything
after it, the head everything before it with trailing slashes stripped
unless the head consists of slashes only. -/
def splitPath (p : String) : String × String :=
  let r := p.data.reverse
  let tailRev := r.takeWhile (fun c => c ≠ '/')
  let head0 := (r.drop tailRev.length).reverse
  let head :=
    if head0.isEmpty then head0
    else if head0.all (fun c => c = '/') then head0
    else (head0.reverse.dropWhile (fun c => c = '/')).reverse
  (⟨head⟩, ⟨tailRev.reverse⟩)

/-- `os.path.splitext` on a slash-free filename: cut before the last
dot, provided some character other than a dot precedes it (a name of
leading dots only, such as a dotfile, has no extension). -/
def splitExt (f : String) : String × String :=
  let cs := f.data
  let ad := cs.reverse.takeWhile (fun c => c ≠ '.')
  if ad.length = cs.length then (f, "")
  else
    let cut := cs.length - ad.length - 1
    if (cs.take cut).any (fun c => c ≠ '.') then (⟨cs.take cut⟩, ⟨cs.drop cut⟩)
    else (f, "")

/-- `os.path.join` of a directory and a relative filename. -/
def joinPath (dir f : String) : String :=
  if f.data.head? = some '/' then f
  else if dir = "" then f
  else if dir.data.getLast? = some '/' then dir ++ f
  else dir ++ "/" ++ f

/-- The three-wide zero-padded counter of the f-string
format specifier 03d used by `get_unique_filepath`. -/
def pad3 (n : Nat) : List Char :=
  let s := natDigits n
  if s.length = 1 then '0' :: '0' :: s
  else if s.length = 2 then '0' :: s
  else s

/-- The candidate filename `name(NNN)ext` tried by the collision loop. -/
def candidateName (name ext : String) (k : Nat) : String :=
  name ++ "(" ++ (⟨pad3 k⟩ : String) ++ ")" ++ ext

/-- The `while True` collision loop of `get_unique_filepath`, with an
explicit fuel argument; one more try than there are existing files is
always enough (`get_unique_filepath_total`), so the fuel chosen in
`get_unique_filepath` never runs out. -/
def findUniqueAux (fs : List String) (dir name ext : String) : Nat → Nat → Option String
  | 0, _ => none
  | fuel + 1, k =>
    let cand := joinPath dir (candidateName name ext k)
    if cand ∈ fs then findUniqueAux fs dir name ext fuel (k + 1) else some cand

/-- `file_manager.get_unique_filepath`: the file system is modelled as
the list `fs` of existing paths, so `os.path.exists` is membership in
`fs`.  If the desired path does not exist it is returned as is;
otherwise the counter loop runs from 1. -/
def get_unique_filepath (fs : List String) (filepath : String) : Option String :=
  if filepath ∈ fs then
    let ds := splitPath filepath
    let ne := splitExt ds.2
    findUniqueAux fs ds.1 ne.1 ne.2 (fs.length + 1) 1
  else some filepath

theorem daysInMonth_le (y m : Nat) : daysInMonth y m ≤ 31 := by
  unfold daysInMonth; split <;> [split <;> omega; split <;> omega]

theorem daysInMonth_ge (y m : Nat) : 28 ≤ daysInMonth y m := by
  unfold daysInMonth; split <;> [split <;> omega; split <;> omega]

theorem monthIdx_nextMonth (d : Date) (hm : 1 ≤ d.month) :
    monthIdx d.nextMonth = monthIdx d + 1 := by
  unfold Date.nextMonth Date.addMonths Date.firstOfMonth monthIdx
  simp only
  omega

theorem nextMonth_valid (d : Date) : d.nextMonth.Valid := by
  unfold Date.nextMonth Date.addMonths Date.firstOfMonth Date.Valid
  simp only
  have h28 := daysInMonth_ge ((d.year * 12 + (d.month - 1) + 1) / 12)
    ((d.year * 12 + (d.month - 1) + 1) % 12 + 1)
  refine ⟨by omega, by omega, ?_, ?_⟩ <;> omega

theorem monthEnd_eq (d : Date) (h1 : 1 ≤ d.month) (h2 : d.month ≤ 12) :
    d.monthEnd = ⟨d.year, d.month, daysInMonth d.year d.month⟩ := by
  unfold Date.monthEnd Date.addMonths Date.firstOfMonth Date.subDay
  simp only
  rcases Nat.lt_or_ge d.month 12 with hlt | hge
  · have hdiv : (d.year * 12 + (d.month - 1) + 1) / 12 = d.year := by omega
    have hmod : (d.year * 12 + (d.month - 1) + 1) % 12 + 1 = d.month + 1 := by omega
    rw [hdiv, hmod]
    have hge28 := daysInMonth_ge d.year (d.month + 1)
    have hmin : 1 ⊓ daysInMonth d.year (d.month + 1) = 1 := by omega
    rw [hmin, if_neg (by omega), if_pos (by omega)]
    simp
  · have hm : d.month = 12 := by omega
    rw [hm]
    have hdiv : (d.year * 12 + (12 - 1) + 1) / 12 = d.year + 1 := by omega
    have hmod : (d.year * 12 + (12 - 1) + 1) % 12 + 1 = 1 := by omega
    rw [hdiv, hmod]
    have hge28 := daysInMonth_ge (d.year + 1) 1
    have hmin : 1 ⊓ daysInMonth (d.year + 1) 1 = 1 := by omega
    rw [hmin, if_neg (by omega), if_neg (by omega)]
    have h31 : daysInMonth d.year 12 = 31 := by unfold daysInMonth; norm_num
    rw [h31]
    simp

theorem key_lt_of_monthIdx_lt {a b : Date} (ha : a.Valid) (hb : b.Valid)
    (h : monthIdx a < monthIdx b) : a.key < b.key := by
  obtain ⟨ha1, ha2, ha3, ha4⟩ := ha
  obtain ⟨hb1, hb2, hb3, hb4⟩ := hb
  have ha5 := daysInMonth_le a.year a.month
  have hb5 := daysInMonth_le b.year b.month
  unfold monthIdx at h
  unfold Date.key
  omega

theorem monthIdx_le_of_key_le {a b : Date} (ha : a.Valid) (hb : b.Valid)
    (h : a.key ≤ b.key) : monthIdx a ≤ monthIdx b := by
  obtain ⟨ha1, ha2, ha3, ha4⟩ := ha
  obtain ⟨hb1, hb2, hb3, hb4⟩ := hb
  have ha5 := daysInMonth_le a.year a.month
  have hb5 := daysInMonth_le b.year b.month
  unfold Date.key at h
  unfold monthIdx
  omega

/-- If `b` is a valid date strictly after the last day of the month of
`current`, then `b` is at or after the first day of the following month:
there is no valid date in between. -/
theorem nextMonth_key_le {current b : Date} (h1 : 1 ≤ current.month)
    (h2 : current.month ≤ 12) (hb : b.Valid)
    (h : current.monthEnd.key < b.key) : current.nextMonth.key ≤ b.key := by
  rw [monthEnd_eq current h1 h2] at h
  obtain ⟨hb1, hb2, hb3, hb4⟩ := hb
  have hb5 := daysInMonth_le b.year b.month
  have hD1 := daysInMonth_ge current.year current.month
  have hD2 := daysInMonth_le current.year current.month
  unfold Date.nextMonth Date.addMonths Date.firstOfMonth Date.key at *
  simp only at h ⊢
  have hge28 := daysInMonth_ge ((current.year * 12 + (current.month - 1) + 1) / 12)
    ((current.year * 12 + (current.month - 1) + 1) % 12 + 1)
  have hmin : 1 ⊓ daysInMonth ((current.year * 12 + (current.month - 1) + 1) / 12)
      ((current.year * 12 + (current.month - 1) + 1) % 12 + 1) = 1 := by omega
  rw [hmin]
  rcases Nat.lt_or_ge current.month 12 with hlt | hge
  · have hdiv : (current.year * 12 + (current.month - 1) + 1) / 12 = current.year := by omega
    have hmod : (current.year * 12 + (current.month - 1) + 1) % 12 + 1 =
        current.month + 1 := by omega
    rw [hdiv, hmod]
    by_contra hcon
    push_neg at hcon
    have hym : b.year = current.year ∧ b.month = current.month ∧
        daysInMonth current.year current.month < b.day := by omega
    obtain ⟨hy, hm, hd⟩ := hym
    rw [hy, hm] at hb4
    omega
  · have hm12 : current.month = 12 := by omega
    rw [hm12] at h ⊢
    have hdiv : (current.year * 12 + (12 - 1) + 1) / 12 = current.year + 1 := by omega
    have hmod : (current.year * 12 + (12 - 1) + 1) % 12 + 1 = 1 := by omega
    rw [hdiv, hmod]
    have h31 : daysInMonth current.year 12 = 31 := by unfold daysInMonth; norm_num
    rw [h31] at h
    omega

theorem monthEnd_key_lt_nextMonth (current : Date) (h1 : 1 ≤ current.month)
    (h2 : current.month ≤ 12) : current.monthEnd.key < current.nextMonth.key := by
  rw [monthEnd_eq current h1 h2]
  have hD2 := daysInMonth_le current.year current.month
  unfold Date.nextMonth Date.addMonths Date.firstOfMonth Date.key
  simp only
  have hge28 := daysInMonth_ge ((current.year * 12 + (current.month - 1) + 1) / 12)
    ((current.year * 12 + (current.month - 1) + 1) % 12 + 1)
  have hmin : 1 ⊓ daysInMonth ((current.year * 12 + (current.month - 1) + 1) / 12)
      ((current.year * 12 + (current.month - 1) + 1) % 12 + 1) = 1 := by omega
  rw [hmin]
  rcases Nat.lt_or_ge current.month 12 with hlt | hge
  · have hdiv : (current.year * 12 + (current.month - 1) + 1) / 12 = current.year := by omega
    have hmod : (current.year * 12 + (current.month - 1) + 1) % 12 + 1 =
        current.month + 1 := by omega
    rw [hdiv, hmod]
    omega
  · have hm12 : current.month = 12 := by omega
    rw [hm12]
    have hdiv : (current.year * 12 + (12 - 1) + 1) / 12 = current.year + 1 := by omega
    have hmod : (current.year * 12 + (12 - 1) + 1) % 12 + 1 = 1 := by omega
    rw [hdiv, hmod]
    have h31 : daysInMonth current.year 12 = 31 := by unfold daysInMonth; norm_num
    rw [h31]
    omega

theorem monthEnd_valid (current : Date) (h1 : 1 ≤ current.month)
    (h2 : current.month ≤ 12) : current.monthEnd.Valid := by
  rw [monthEnd_eq current h1 h2]
  have h28 := daysInMonth_ge current.year current.month
  exact ⟨h1, h2, le_trans (by norm_num) h28, le_rfl⟩

theorem nextMonth_day (d : Date) : d.nextMonth.day = 1 := by
  unfold Date.nextMonth Date.addMonths Date.firstOfMonth
  simp only
  have h28 := daysInMonth_ge ((d.year * 12 + (d.month - 1) + 1) / 12)
    ((d.year * 12 + (d.month - 1) + 1) % 12 + 1)
  omega

theorem key_le_monthEnd (current : Date) (hv : current.Valid) :
    current.key ≤ current.monthEnd.key := by
  obtain ⟨h1, h2, h3, h4⟩ := hv
  rw [monthEnd_eq current h1 h2]
  unfold Date.key
  simp only
  omega

theorem walkAux_nil (minStart today : Date) (fuel : Nat) (c : Date)
    (h : today.key < c.key) : walkAux minStart today fuel c = [] := by
  cases fuel with
  | zero => rfl
  | succ n => rw [walkAux, if_neg (by omega)]

theorem chunkOf_fst (minStart today current : Date) (hv : current.Valid)
    (hinv : current = minStart ∨ (current.day = 1 ∧ minStart.key < current.key)) :
    (chunkOf minStart today current).1 = current := by
  unfold chunkOf Date.firstOfMonth Date.key
  simp only
  rcases hinv with h | ⟨hd, hk⟩
  · subst h
    have h3 : 1 ≤ current.day := hv.2.2.1
    by_cases hday : current.day = 1
    · rw [if_neg (by omega)]
      cases current with
      | mk y m dd => simp_all
    · rw [if_pos (by omega)]
  · unfold Date.key at hk
    rw [if_neg (by omega)]
    cases current with
    | mk y m dd => simp_all

theorem walkAux_spec (minStart today : Date) (htv : today.Valid) :
    ∀ fuel current, current.Valid →
      (current = minStart ∨ (current.day = 1 ∧ minStart.key < current.key)) →
      current.key ≤ today.key →
      monthIdx today + 1 ≤ monthIdx current + fuel →
      (∀ d : Date, d.Valid →
        ((∃ c ∈ walkAux minStart today fuel current, c.1.key ≤ d.key ∧ d.key ≤ c.2.key) ↔
          (current.key ≤ d.key ∧ d.key ≤ today.key)))
      ∧ (walkAux minStart today fuel current).Pairwise (fun a b => a.2.key < b.1.key)
      ∧ (∀ c ∈ walkAux minStart today fuel current,
          current.key ≤ c.1.key ∧ c.1.key ≤ c.2.key ∧ c.2.key ≤ today.key) := by
  intro fuel
  induction fuel with
  | zero =>
    intro current hv hinv hguard hfuel
    exfalso
    have : monthIdx today < monthIdx current := by omega
    have := key_lt_of_monthIdx_lt htv hv this
    omega
  | succ n ih =>
    intro current hv hinv hguard hfuel
    have hm1 : 1 ≤ current.month := hv.1
    have hm2 : current.month ≤ 12 := hv.2.1
    have hcs := chunkOf_fst minStart today current hv hinv
    have hle_me := key_le_monthEnd current hv
    have hme_lt_next := monthEnd_key_lt_nextMonth current hm1 hm2
    have hms_le_cur : minStart.key ≤ current.key := by
      rcases hinv with h | ⟨_, hk⟩
      · rw [h]
      · omega
    rw [walkAux, if_pos hguard]
    by_cases hend : today.key ≤ current.monthEnd.key
    · -- the clipped chunk end is today: this is the last chunk
      have hrec : walkAux minStart today n current.nextMonth = [] :=
        walkAux_nil minStart today n current.nextMonth (by omega)
      rw [hrec]
      have hce : (chunkOf minStart today current).2.key = today.key := by
        unfold chunkOf
        simp only
        by_cases h : today.key < current.monthEnd.key
        · rw [if_pos h]
        · rw [if_neg h]; omega
      refine ⟨?_, ?_, ?_⟩
      · intro d hd
        constructor
        · rintro ⟨c, hc, hcd1, hcd2⟩
          simp only [List.mem_singleton] at hc
          subst hc
          rw [hcs] at hcd1
          rw [hce] at hcd2
          exact ⟨hcd1, hcd2⟩
        · rintro ⟨hd1, hd2⟩
          refine ⟨chunkOf minStart today current, List.mem_singleton_self _, ?_, ?_⟩
          · rw [hcs]; exact hd1
          · rw [hce]; exact hd2
      · exact List.pairwise_singleton _ _
      · intro c hc
        simp only [List.mem_singleton] at hc
        subst hc
        rw [hcs, hce]
        exact ⟨le_rfl, hguard, le_rfl⟩
    · -- the chunk ends at the month end and the walk continues
      push_neg at hend
      have hce : (chunkOf minStart today current).2 = current.monthEnd := by
        unfold chunkOf
        simp only
        rw [if_neg (by omega)]
      have hnext_le : current.nextMonth.key ≤ today.key :=
        nextMonth_key_le hm1 hm2 htv hend
      have hnextv : current.nextMonth.Valid := nextMonth_valid current
      have hinv2 : current.nextMonth = minStart ∨
          (current.nextMonth.day = 1 ∧ minStart.key < current.nextMonth.key) :=
        Or.inr ⟨nextMonth_day current, by omega⟩
      have hfuel2 : monthIdx today + 1 ≤ monthIdx current.nextMonth + n := by
        rw [monthIdx_nextMonth current hm1]; omega
      obtain ⟨ihcov, ihpw, ihbd⟩ := ih current.nextMonth hnextv hinv2 hnext_le hfuel2
      refine ⟨?_, ?_, ?_⟩
      · intro d hd
        constructor
        · rintro ⟨c, hc, hcd1, hcd2⟩
          rcases List.mem_cons.mp hc with h | h
          · subst h
            rw [hcs] at hcd1
            rw [hce] at hcd2
            exact ⟨hcd1, by omega⟩
          · have := (ihcov d hd).mp ⟨c, h, hcd1, hcd2⟩
            exact ⟨by omega, this.2⟩
        · rintro ⟨hd1, hd2⟩
          by_cases hdm : d.key ≤ current.monthEnd.key
          · refine ⟨chunkOf minStart today current, List.mem_cons_self _ _, ?_, ?_⟩
            · rw [hcs]; exact hd1
            · rw [hce]; exact hdm
          · push_neg at hdm
            have hdnext : current.nextMonth.key ≤ d.key :=
              nextMonth_key_le hm1 hm2 hd hdm
            obtain ⟨c, hc, hcd⟩ := (ihcov d hd).mpr ⟨hdnext, hd2⟩
            exact ⟨c, List.mem_cons_of_mem _ hc, hcd⟩
      · rw [List.pairwise_cons]
        refine ⟨?_, ihpw⟩
        intro c hc
        have := (ihbd c hc).1
        rw [hce]
        omega
      · intro c hc
        rcases List.mem_cons.mp hc with h | h
        · subst h
          rw [hcs, hce]
          exact ⟨le_rfl, hle_me, by omega⟩
        · have := ihbd c h
          exact ⟨by omega, this.2.1, this.2.2⟩

theorem walkChunks_spec (minStart today : Date)
    (hms : minStart.Valid) (ht : today.Valid) (hle : minStart.key ≤ today.key) :
    (∀ d : Date, d.Valid →
      ((∃ c ∈ walkChunks minStart today, c.1.key ≤ d.key ∧ d.key ≤ c.2.key) ↔
        (minStart.key ≤ d.key ∧ d.key ≤ today.key)))
    ∧ (walkChunks minStart today).Pairwise (fun a b => a.2.key < b.1.key)
    ∧ (∀ c ∈ walkChunks minStart today,
        minStart.key ≤ c.1.key ∧ c.1.key ≤ c.2.key ∧ c.2.key ≤ today.key) := by
  have hidx : monthIdx minStart ≤ monthIdx today := monthIdx_le_of_key_le hms ht hle
  have hfuel : monthIdx today + 1 ≤
      monthIdx minStart + (monthIdx today + 1 - monthIdx minStart) := by omega
  exact walkAux_spec minStart today ht (monthIdx today + 1 - monthIdx minStart)
    minStart hms (Or.inl rfl) hle hfuel

theorem walkChunks_nodup (minStart today : Date)
    (hms : minStart.Valid) (ht : today.Valid) (hle : minStart.key ≤ today.key) :
    (walkChunks minStart today).Nodup := by
  obtain ⟨_, hpw, hbd⟩ := walkChunks_spec minStart today hms ht hle
  refine List.Pairwise.imp_of_mem ?_ hpw
  intro a b ha _ hab
  have h1 := (hbd a ha).2.1
  intro he
  rw [he] at h1 hab
  omega

/-- Claim C4: for every pair of valid dates with `minStart <= today`, the
clipped monthly chunks produced by the coverage walker exactly cover the
interval `[minStart, today]`: a valid date lies in some produced chunk
exactly when it lies in `[minStart, today]` (no gaps), distinct chunks
are pairwise disjoint, every produced chunk end strictly preceding the
next chunk start (no overlaps), and every chunk is a well-formed
subinterval of `[minStart, today]`. -/
theorem month_tiling_coverage (minStart today : Date)
    (hms : minStart.Valid) (ht : today.Valid) (hle : minStart.key ≤ today.key) :
    (∀ d : Date, d.Valid →
      ((∃ c ∈ walkChunks minStart today, c.1.key ≤ d.key ∧ d.key ≤ c.2.key) ↔
        (minStart.key ≤ d.key ∧ d.key ≤ today.key)))
    ∧ (walkChunks minStart today).Pairwise (fun a b => a.2.key < b.1.key)
    ∧ (∀ c ∈ walkChunks minStart today,
        minStart.key ≤ c.1.key ∧ c.1.key ≤ c.2.key ∧ c.2.key ≤ today.key) :=
  walkChunks_spec minStart today hms ht hle

/-- Witness for C4 at a concrete clipped range: the walk from
2024-01-15 to 2024-03-10 contains 2024-02-29 (a leap day) and the
chunks tile the range. -/
theorem month_tiling_coverage_witness :
    ((∃ c ∈ walkChunks ⟨2024, 1, 15⟩ ⟨2024, 3, 10⟩,
        c.1.key ≤ (⟨2024, 2, 29⟩ : Date).key ∧ (⟨2024, 2, 29⟩ : Date).key ≤ c.2.key) ↔
      ((⟨2024, 1, 15⟩ : Date).key ≤ (⟨2024, 2, 29⟩ : Date).key ∧
        (⟨2024, 2, 29⟩ : Date).key ≤ (⟨2024, 3, 10⟩ : Date).key)) :=
  (month_tiling_coverage ⟨2024, 1, 15⟩ ⟨2024, 3, 10⟩ (by decide) (by decide)
    (by decide)).1 ⟨2024, 2, 29⟩ (by decide)

/-- Claim C1: for every discovered job (nonempty discovered file list,
with `min_start_date` computed by the scan), if the set of discovered
partition filenames equals exactly the expected monthly-partition
filename set computed from `min_start_date` to today, the job is
reported complete; and if any expected filename is absent from the job
directory, the job is reported incomplete and hence flagged for repair.
The month walk depends on `parse_historical_fidelity`, which is missing
from the source and modelled from the spec. -/
theorem gap_detector_soundness (disk : List String) (ticker fid : String)
    (today ms : Date) (_hne : discoveredFiles disk ≠ [])
    (_hms : minStartDate today (discoveredFiles disk) = some ms) :
    (((∀ f ∈ discoveredFiles disk, f ∈ expectedNames ticker fid ms today) ∧
        (∀ f ∈ expectedNames ticker fid ms today, f ∈ discoveredFiles disk)) →
      isJobComplete disk ticker fid ms today = true)
    ∧ (∀ en ∈ expectedNames ticker fid ms today, en ∉ disk →
        isJobComplete disk ticker fid ms today = false) := by
  constructor
  · rintro ⟨_, h2⟩
    unfold isJobComplete
    rw [List.all_eq_true]
    intro en hen
    rw [decide_eq_true_eq]
    have hdisc : en ∈ discoveredFiles disk := h2 en hen
    exact List.mem_of_mem_filter hdisc
  · intro en hen habs
    unfold isJobComplete
    rw [Bool.eq_false_iff]
    intro hall
    exact habs (of_decide_eq_true (List.all_eq_true.mp hall en hen))

/-- Witness for C1: a one-month job whose single discovered file is
exactly the expected file set is reported complete. -/
theorem gap_detector_soundness_witness :
    isJobComplete [janFile] "ABC" "1 minute" ⟨2024, 1, 1⟩ ⟨2024, 1, 31⟩ = true :=
  (gap_detector_soundness [janFile] "ABC" "1 minute" ⟨2024, 1, 31⟩ ⟨2024, 1, 1⟩
    (by decide) (by decide)).1 ⟨by decide, by decide⟩

/-- Counterexample to claim C2: in the end-to-end scenario (partitions
for 2024-01 and 2024-03, no 2024-02, run day 2024-03-15) the computed
`min_start_date` is 2024-01-01, yet the pipeline schedules no re-fetch
over exactly the claimed range from `min_start_date` to today; the
re-fetch it schedules starts at 2023-12-15, earlier than
`min_start_date`, because the start is derived as today minus
`duration_months` whole months. -/
theorem major_repair_scenario_counterexample :
    minStartDate scenarioToday (discoveredFiles scenarioDisk) = some ⟨2024, 1, 1⟩
    ∧ RepairAction.refetch ⟨2024, 1, 1⟩ scenarioToday ∉
        majorRepairJob scenarioDisk "ABC" "1 minute" scenarioToday
    ∧ RepairAction.refetch ⟨2023, 12, 15⟩ scenarioToday ∈
        majorRepairJob scenarioDisk "ABC" "1 minute" scenarioToday := by
  decide

/-- Claim C2 as amended: in the end-to-end scenario the major-repair
scan (a) reports the job incomplete, (b) computes
`min_start_date = 2024-01-01`, (c) schedules one re-fetch whose range is
`[today - relativedelta(months=duration_months), today]` with
`duration_months = relativedelta(today, min_start).years * 12 + months + 1 = 3`,
that is `[2023-12-15, 2024-03-15]` — a range that begins on or before
`min_start_date` and so covers `[min_start_date, today]`, but does not
begin exactly at `min_start_date` — and (d) deletes both discovered
files of the job before the re-fetch action. -/
theorem major_repair_scenario_amended :
    isJobComplete scenarioDisk "ABC" "1 minute" ⟨2024, 1, 1⟩ scenarioToday = false
    ∧ minStartDate scenarioToday (discoveredFiles scenarioDisk) = some ⟨2024, 1, 1⟩
    ∧ relTotalMonths scenarioToday ⟨2024, 1, 1⟩ + 1 = 3
    ∧ scenarioToday.subMonths 3 = ⟨2023, 12, 15⟩
    ∧ majorRepairJob scenarioDisk "ABC" "1 minute" scenarioToday =
        [RepairAction.deleteFile janFile, RepairAction.deleteFile marFile,
          RepairAction.refetch ⟨2023, 12, 15⟩ scenarioToday]
    ∧ (⟨2023, 12, 15⟩ : Date).key ≤ (⟨2024, 1, 1⟩ : Date).key := by
  decide

/-- Claim C3 as amended: for every discovered job, a chunk is in the
minor-repair missing list exactly when it is an expected month whose
expected filename is absent from the discovered set (a 1:1
correspondence, the list having no duplicates); an expected month whose
expected filename is present among the discovered files is never in the
missing list; and minor repair performs no deletion at all.  (As stated
the claim also asserted that no parsed range of a discovered file can
appear in the missing list; that fails when a discovered file carries
the right range but the wrong extension or ticker spelling, see the
counterexample.)  The month walk depends on `parse_historical_fidelity`,
which is missing from the source and modelled from the spec. -/
theorem minor_repair_precision (disk : List String) (ticker fid : String)
    (today ms : Date) (hms : minStartDate today (discoveredFiles disk) = some ms)
    (hv1 : ms.Valid) (hv2 : today.Valid) (hle : ms.key ≤ today.key) :
    (∀ c, c ∈ minorMissing disk ticker fid today ↔
      (c ∈ walkChunks ms today ∧
        expectedFilename ticker fid c.1 c.2 ∉ discoveredFiles disk))
    ∧ (minorMissing disk ticker fid today).Nodup
    ∧ (∀ c ∈ walkChunks ms today,
        expectedFilename ticker fid c.1 c.2 ∈ discoveredFiles disk →
          c ∉ minorMissing disk ticker fid today)
    ∧ (∀ a ∈ minorRepairJob disk ticker fid today,
        ∀ p, a ≠ RepairAction.deleteFile p) := by
  have hmiss : minorMissing disk ticker fid today =
      (walkChunks ms today).filter
        (fun c => decide (expectedFilename ticker fid c.1 c.2 ∉ discoveredFiles disk)) := by
    unfold minorMissing
    rw [hms]
  have hchar : ∀ c, c ∈ minorMissing disk ticker fid today ↔
      (c ∈ walkChunks ms today ∧
        expectedFilename ticker fid c.1 c.2 ∉ discoveredFiles disk) := by
    intro c
    rw [hmiss, List.mem_filter, decide_eq_true_eq]
  refine ⟨hchar, ?_, ?_, ?_⟩
  · rw [hmiss]
    exact (walkChunks_nodup ms today hv1 hv2 hle).filter _
  · intro c hc hin hmem
    exact ((hchar c).mp hmem).2 hin
  · intro a ha p
    unfold minorRepairJob at ha
    obtain ⟨c, _, hmap⟩ := List.mem_map.mp ha
    rw [← hmap]
    intro hcon
    cases hcon

/-- Witness for C3: in a job holding one mis-extensioned January file,
the single expected January chunk is in the missing list exactly because
its expected parquet filename is absent from the discovered set. -/
theorem minor_repair_precision_witness :
    ((⟨2024, 1, 1⟩, ⟨2024, 1, 31⟩) ∈ minorMissing [minorCsvFile] "ABC" "1 minute" ⟨2024, 1, 31⟩ ↔
      ((⟨2024, 1, 1⟩, ⟨2024, 1, 31⟩) ∈ walkChunks ⟨2024, 1, 1⟩ ⟨2024, 1, 31⟩ ∧
        expectedFilename "ABC" "1 minute" ⟨2024, 1, 1⟩ ⟨2024, 1, 31⟩ ∉
          discoveredFiles [minorCsvFile])) :=
  (minor_repair_precision [minorCsvFile] "ABC" "1 minute" ⟨2024, 1, 31⟩ ⟨2024, 1, 1⟩
    (by decide) (by decide) (by decide) (by decide)).1 (⟨2024, 1, 1⟩, ⟨2024, 1, 31⟩)

/-- Counterexample to claim C3 as stated: the discovered file
`ABC_1-minute_2024-01-01_to_2024-01-31.csv` has parsed range
2024-01-01 to 2024-01-31, and exactly that range is in the minor-repair
missing list of its own job (the expected January filename has the
parquet extension, which is absent), so the range of an existing
discovered file does appear in the missing list. -/
theorem minor_repair_counterexample :
    minorCsvFile ∈ discoveredFiles [minorCsvFile]
    ∧ parsedRange minorCsvFile = some (⟨2024, 1, 1⟩, ⟨2024, 1, 31⟩)
    ∧ (⟨2024, 1, 1⟩, ⟨2024, 1, 31⟩) ∈
        minorMissing [minorCsvFile] "ABC" "1 minute" ⟨2024, 1, 31⟩ := by
  decide

theorem minStartFrom_none (files : List String) :
    files.foldl
      (fun acc f =>
        match acc, extractStart f with
        | some m0, some d => some (if d.key < m0.key then d else m0)
        | _, _ => none)
      (none : Option Date) = none := by
  induction files with
  | nil => rfl
  | cons f tl ih =>
    rw [List.foldl_cons]
    have hstep :
        (match (none : Option Date), extractStart f with
          | some m0, some d => some (if d.key < m0.key then d else m0)
          | _, _ => none) = (none : Option Date) := by
      cases extractStart f <;> rfl
    rw [hstep, ih]

theorem minStartFrom_spec :
    ∀ (files : List String) (m0 : Date) (ds : List Date),
      files.mapM extractStart = some ds →
      ∃ m, minStartFrom m0 files = some m ∧ m.key ≤ m0.key ∧
        (∀ d ∈ ds, m.key ≤ d.key) ∧ (m = m0 ∨ m ∈ ds) ∧
        ((∃ d ∈ ds, d.key < m0.key) → m ∈ ds) := by
  intro files
  induction files with
  | nil =>
    intro m0 ds hmap
    simp only [List.mapM_nil, pure, Option.some.injEq] at hmap
    subst hmap
    exact ⟨m0, rfl, le_rfl, by simp, Or.inl rfl, by simp⟩
  | cons f tl ih =>
    intro m0 ds hmap
    rw [List.mapM_cons] at hmap
    cases hf : extractStart f with
    | none => rw [hf] at hmap; simp at hmap
    | some d =>
      rw [hf] at hmap
      cases htl : tl.mapM extractStart with
      | none => rw [htl] at hmap; simp at hmap
      | some rest =>
        rw [htl] at hmap
        simp at hmap
        subst hmap
        have hfold : minStartFrom m0 (f :: tl) =
            minStartFrom (if d.key < m0.key then d else m0) tl := by
          unfold minStartFrom
          rw [List.foldl_cons, hf]
        obtain ⟨m, hm, hm0, hall, hor, hstrict⟩ :=
          ih (if d.key < m0.key then d else m0) rest htl
        refine ⟨m, by rw [hfold]; exact hm, ?_, ?_, ?_, ?_⟩
        · by_cases h : d.key < m0.key <;> simp [h] at hm0 <;> omega
        · intro d' hd'
          rcases List.mem_cons.mp hd' with h | h
          · subst h
            by_cases h : d'.key < m0.key <;> simp [h] at hm0 <;> omega
          · exact hall d' h
        · rcases hor with h | h
          · by_cases hc : d.key < m0.key
            · rw [if_pos hc] at h
              exact Or.inr (by rw [h]; exact List.mem_cons_self d rest)
            · rw [if_neg hc] at h
              exact Or.inl h
          · exact Or.inr (List.mem_cons_of_mem d h)
        · rintro ⟨d', hd', hlt⟩
          rcases List.mem_cons.mp hd' with h | h
          · rw [h] at hlt
            rw [if_pos hlt] at hor
            rcases hor with h2 | h2
            · rw [h2]; exact List.mem_cons_self d rest
            · exact List.mem_cons_of_mem d h2
          · by_cases hc : d.key < m0.key
            · rw [if_pos hc] at hor
              rcases hor with he | he
              · rw [he]; exact List.mem_cons_self d rest
              · exact List.mem_cons_of_mem d he
            · rw [if_neg hc] at hstrict
              exact List.mem_cons_of_mem d (hstrict ⟨d', h, hlt⟩)

/-- Claim C6: for every job with a nonempty partition file list whose
filenames all parse, the inferred `min_start_date` is the minimum of
today and the start dates embedded in the filenames — it is at most
today, at most every embedded start date, it is today or one of the
embedded start dates, and whenever some embedded start date lies
strictly before today (every real partition does) it is an embedded
start date, i.e. the minimum of the start dates, as the claim states;
the initialisation with today only caps the result at today. -/
theorem coverage_inferencer_min (today : Date) (files : List String) (ds : List Date)
    (_hne : files ≠ []) (hmap : files.mapM extractStart = some ds) :
    ∃ m, minStartDate today files = some m ∧ m.key ≤ today.key ∧
      (∀ d ∈ ds, m.key ≤ d.key) ∧ (m = today ∨ m ∈ ds) ∧
      ((∃ d ∈ ds, d.key < today.key) → m ∈ ds) :=
  minStartFrom_spec files today ds hmap

/-- Witness for C6: the scenario job with January and March files has
inferred start 2024-01-01, the minimum of the embedded start dates. -/
theorem coverage_inferencer_min_witness :
    ∃ m, minStartDate ⟨2024, 3, 15⟩ [janFile, marFile] = some m ∧
      m.key ≤ (⟨2024, 3, 15⟩ : Date).key ∧
      (∀ d ∈ [(⟨2024, 1, 1⟩ : Date), ⟨2024, 3, 1⟩], m.key ≤ d.key) ∧
      (m = ⟨2024, 3, 15⟩ ∨ m ∈ [(⟨2024, 1, 1⟩ : Date), ⟨2024, 3, 1⟩]) ∧
      ((∃ d ∈ [(⟨2024, 1, 1⟩ : Date), ⟨2024, 3, 1⟩], d.key < (⟨2024, 3, 15⟩ : Date).key) →
        m ∈ [(⟨2024, 1, 1⟩ : Date), ⟨2024, 3, 1⟩]) :=
  coverage_inferencer_min ⟨2024, 3, 15⟩ [janFile, marFile]
    [⟨2024, 1, 1⟩, ⟨2024, 3, 1⟩] (by decide) (by decide)

/-- Claim C7: a partition is flagged iff its percent-smaller value,
computed against the neighbour mean (or single neighbour at the ends),
strictly exceeds the threshold; in particular with neighbour sizes
100KB and 100KB, a 79KB file scores 21 percent and is flagged at the
default threshold 20, while an 81KB file scores 19 percent and is not. -/
theorem anomaly_threshold_boundary :
    (∀ (threshold : ℚ) (sizes : List ℚ) (i : Nat) (c : ℚ),
      2 ≤ sizes.length → i < sizes.length →
      comparisonSize sizes i = some c → c ≠ 0 →
      (i ∈ flaggedIdx threshold sizes ↔ (c - sizes.getD i 0) / c * 100 > threshold))
    ∧ flaggedIdx 20 [100, 79, 100] = [1]
    ∧ flaggedIdx 20 [100, 81, 100] = [] := by
  have hchar : ∀ (threshold : ℚ) (sizes : List ℚ) (i : Nat) (c : ℚ),
      2 ≤ sizes.length → i < sizes.length →
      comparisonSize sizes i = some c → c ≠ 0 →
      (i ∈ flaggedIdx threshold sizes ↔ (c - sizes.getD i 0) / c * 100 > threshold) := by
    intro θ sizes i c h2 hi hc hc0
    unfold flaggedIdx
    rw [if_neg (by omega)]
    rw [List.mem_filter, List.mem_range]
    unfold isFlagged
    rw [hc]
    simp [hi, hc0]
  refine ⟨hchar, ?_, ?_⟩
  · have h0 : isFlagged 20 [100, 79, 100] 0 = false := by
      unfold isFlagged comparisonSize
      norm_num
    have h1 : isFlagged 20 [100, 79, 100] 1 = true := by
      unfold isFlagged comparisonSize
      norm_num
    have h2 : isFlagged 20 [100, 79, 100] 2 = false := by
      unfold isFlagged comparisonSize
      norm_num
    unfold flaggedIdx
    rw [if_neg (by norm_num)]
    rw [show ([100, 79, 100] : List ℚ).length = 3 from rfl,
      show List.range 3 = [0, 1, 2] from rfl]
    simp [List.filter, h0, h1, h2]
  · have h0 : isFlagged 20 [100, 81, 100] 0 = false := by
      unfold isFlagged comparisonSize
      norm_num
    have h1 : isFlagged 20 [100, 81, 100] 1 = false := by
      unfold isFlagged comparisonSize
      norm_num
    have h2 : isFlagged 20 [100, 81, 100] 2 = false := by
      unfold isFlagged comparisonSize
      norm_num
    unfold flaggedIdx
    rw [if_neg (by norm_num)]
    rw [show ([100, 81, 100] : List ℚ).length = 3 from rfl,
      show List.range 3 = [0, 1, 2] from rfl]
    simp [List.filter, h0, h1, h2]

/-- Witness for C7: the characterisation applied to the 79KB file
between two 100KB neighbours, whose comparison size is 100. -/
theorem anomaly_threshold_boundary_witness :
    (1 ∈ flaggedIdx 20 [100, 79, 100] ↔
      ((100 : ℚ) - ([100, 79, 100] : List ℚ).getD 1 0) / 100 * 100 > 20) :=
  anomaly_threshold_boundary.1 20 [100, 79, 100] 1 100 (by norm_num) (by norm_num)
    (by unfold comparisonSize; norm_num) (by norm_num)

theorem runOps_errors (ops : List LoggerOp) :
    ∀ st, (runOps st ops).errors = st.errors ++ loggedOf ops := by
  induction ops with
  | nil => intro st; simp [runOps, loggedOf]
  | cons op rest ih =>
    intro st
    cases op with
    | logErr e =>
      rw [show runOps st (LoggerOp.logErr e :: rest) = runOps (log_error st e) rest from rfl]
      rw [ih]
      simp [log_error, loggedOf]
    | register =>
      rw [show runOps st (LoggerOp.register :: rest) =
        runOps (register_error_handler st) rest from rfl]
      rw [ih]
      have he : (register_error_handler st).errors = st.errors := by
        unfold register_error_handler
        split <;> rfl
      rw [he]
      simp [loggedOf]

theorem runOps_registrations (ops : List LoggerOp) :
    ∀ st, st.handlerRegistrations = (if st.isRegistered then 1 else 0) →
      (runOps st ops).handlerRegistrations =
        (if st.isRegistered ∨ LoggerOp.register ∈ ops then 1 else 0) := by
  induction ops with
  | nil =>
    intro st hinv
    simp [runOps, hinv]
  | cons op rest ih =>
    intro st hinv
    cases op with
    | logErr e =>
      rw [show runOps st (LoggerOp.logErr e :: rest) = runOps (log_error st e) rest from rfl]
      have h := ih (log_error st e) (by simp [log_error, hinv])
      rw [h]
      simp [log_error]
    | register =>
      rw [show runOps st (LoggerOp.register :: rest) =
        runOps (register_error_handler st) rest from rfl]
      have hinv2 : (register_error_handler st).handlerRegistrations =
          (if (register_error_handler st).isRegistered then 1 else 0) := by
        unfold register_error_handler
        by_cases hr : st.isRegistered <;> simp [hr, hinv]
      have hreg : (register_error_handler st).isRegistered = true := by
        unfold register_error_handler
        by_cases hr : st.isRegistered <;> simp [hr]
      rw [ih (register_error_handler st) hinv2, hreg]
      simp

/-- Claim C8: over any sequence of logger calls in one process, every
failure passed to `log_error` is appended to the in-memory collection
in order and nothing is discarded; and however many times
`register_error_handler` is called, the CSV flush handler is handed to
`atexit` exactly once (zero times when never called), so the collected
errors are written to the persistent error-log CSV exactly once at
normal process exit. -/
theorem error_log_flush_discipline (ops : List LoggerOp) :
    (runOps initLogger ops).errors = loggedOf ops
    ∧ (runOps initLogger ops).handlerRegistrations =
        (if LoggerOp.register ∈ ops then 1 else 0) := by
  constructor
  · rw [runOps_errors ops initLogger]
    rfl
  · rw [runOps_registrations ops initLogger (by rfl)]
    simp [initLogger]

/-- Claim C9: the liquidity classification is a total case analysis:
tier 99 exactly when a metric is missing or ADDV or ADNT is zero;
otherwise tier 1 exactly under the tier-1 thresholds; otherwise tier 2
exactly under the tier-2 thresholds; otherwise tier 3; and the tier is
always one of 1, 2, 3, 99. -/
theorem liquidity_tier_total (addv adnt mtbt : Option ℚ) :
    ((classify_liquidity addv adnt mtbt).1 = 99 ↔ metricsBad addv adnt mtbt)
    ∧ ((classify_liquidity addv adnt mtbt).1 = 1 ↔
        (¬ metricsBad addv adnt mtbt ∧ tier1Cond addv adnt mtbt))
    ∧ ((classify_liquidity addv adnt mtbt).1 = 2 ↔
        (¬ metricsBad addv adnt mtbt ∧ ¬ tier1Cond addv adnt mtbt ∧
          tier2Cond addv adnt mtbt))
    ∧ ((classify_liquidity addv adnt mtbt).1 = 3 ↔
        (¬ metricsBad addv adnt mtbt ∧ ¬ tier1Cond addv adnt mtbt ∧
          ¬ tier2Cond addv adnt mtbt))
    ∧ ((classify_liquidity addv adnt mtbt).1 = 1 ∨
        (classify_liquidity addv adnt mtbt).1 = 2 ∨
        (classify_liquidity addv adnt mtbt).1 = 3 ∨
        (classify_liquidity addv adnt mtbt).1 = 99) := by
  rcases addv with _ | a
  · simp [classify_liquidity, metricsBad, tier1Cond, tier2Cond]
  rcases adnt with _ | n
  · simp [classify_liquidity, metricsBad, tier1Cond, tier2Cond]
  rcases mtbt with _ | m
  · simp [classify_liquidity, metricsBad, tier1Cond, tier2Cond]
  by_cases hz : a = 0 ∨ n = 0
  · simp only [classify_liquidity, if_pos hz, metricsBad, tier1Cond, tier2Cond]
    simp [hz]
  · by_cases ht1 : 25000000 ≤ a ∧ 5000 ≤ n ∧ m ≤ 30
    · simp only [classify_liquidity, if_neg hz, if_pos ht1,
        metricsBad, tier1Cond, tier2Cond]
      simp [hz, ht1]
    · by_cases ht2 : 5000000 ≤ a ∧ 1000 ≤ n ∧ m ≤ 300
      · simp only [classify_liquidity, if_neg hz, if_neg ht1, if_pos ht2,
          metricsBad, tier1Cond, tier2Cond]
        simp [hz, ht1, ht2]
      · simp only [classify_liquidity, if_neg hz, if_neg ht1, if_neg ht2,
          metricsBad, tier1Cond, tier2Cond]
        simp [hz, ht1, ht2]

theorem digVal_digitChar (k : Nat) (hk : k < 10) : digVal (digitChar k) = k := by
  interval_cases k <;> rfl

theorem digitsVal_append_single (xs : List Char) (c : Char) :
    digitsVal (xs ++ [c]) = digitsVal xs * 10 + digVal c := by
  unfold digitsVal
  rw [List.foldl_append]
  rfl

theorem digitsVal_natDigitsAux :
    ∀ fuel n, n ≤ fuel → digitsVal (natDigitsAux fuel n) = n := by
  intro fuel
  induction fuel with
  | zero =>
    intro n hn
    have : n = 0 := by omega
    subst this
    rfl
  | succ m ih =>
    intro n hn
    rw [natDigitsAux]
    by_cases h : n < 10
    · rw [if_pos h]
      unfold digitsVal
      simp [List.foldl_cons, digVal_digitChar n h]
    · rw [if_neg h]
      rw [digitsVal_append_single]
      have h1 : n / 10 ≤ m := by omega
      rw [ih (n / 10) h1, digVal_digitChar (n % 10) (by omega)]
      omega

theorem digitsVal_natDigits (n : Nat) : digitsVal (natDigits n) = n :=
  digitsVal_natDigitsAux n n le_rfl

theorem digitsVal_cons_zero (xs : List Char) : digitsVal ('0' :: xs) = digitsVal xs := rfl

theorem digitsVal_pad3 (n : Nat) : digitsVal (pad3 n) = n := by
  show digitsVal (if (natDigits n).length = 1 then '0' :: '0' :: natDigits n
    else if (natDigits n).length = 2 then '0' :: natDigits n else natDigits n) = n
  split
  · rw [digitsVal_cons_zero, digitsVal_cons_zero, digitsVal_natDigits]
  · split
    · rw [digitsVal_cons_zero, digitsVal_natDigits]
    · exact digitsVal_natDigits n

theorem pad3_inj {a b : Nat} (h : pad3 a = pad3 b) : a = b := by
  have ha := digitsVal_pad3 a
  rw [h, digitsVal_pad3] at ha
  omega

theorem candidateName_inj (name ext : String) {a b : Nat}
    (h : candidateName name ext a = candidateName name ext b) : a = b := by
  unfold candidateName at h
  have hd : name.data ++ ('(' :: pad3 a ++ (')' :: ext.data)) =
      name.data ++ ('(' :: pad3 b ++ (')' :: ext.data)) := by
    have := congrArg String.data h
    simpa [String.data_append] using this
  have h2 := List.append_cancel_left hd
  have h3 : pad3 a ++ (')' :: ext.data) = pad3 b ++ (')' :: ext.data) := by
    injection h2
  have hlen : (pad3 a).length = (pad3 b).length := by
    have := congrArg List.length h3
    simp at this
    omega
  exact pad3_inj (List.append_inj h3 hlen).1

theorem joinPath_inj (dir : String) {x y : String}
    (hx : x.data.head? ≠ some '/') (hy : y.data.head? ≠ some '/')
    (h : joinPath dir x = joinPath dir y) : x = y := by
  unfold joinPath at h
  rw [if_neg hx, if_neg hy] at h
  by_cases hd : dir = ""
  · rwa [if_pos hd, if_pos hd] at h
  · rw [if_neg hd, if_neg hd] at h
    by_cases hs : dir.data.getLast? = some '/'
    · rw [if_pos hs, if_pos hs] at h
      have := congrArg String.data h
      rw [String.data_append, String.data_append] at this
      exact String.ext (List.append_cancel_left this)
    · rw [if_neg hs, if_neg hs] at h
      have := congrArg String.data h
      rw [String.data_append, String.data_append, String.data_append,
        String.data_append] at this
      have h1 : dir.data ++ ("/".data ++ x.data) = dir.data ++ ("/".data ++ y.data) := by
        simpa [List.append_assoc] using this
      exact String.ext (List.append_cancel_left (List.append_cancel_left h1))

theorem candidateName_head (name ext : String) (k : Nat)
    (hname : ∀ c ∈ name.data, c ≠ '/') :
    (candidateName name ext k).data.head? ≠ some '/' := by
  unfold candidateName
  rw [show (name ++ "(" ++ (⟨pad3 k⟩ : String) ++ ")" ++ ext).data =
    name.data ++ ('(' :: pad3 k ++ (')' :: ext.data)) by simp [String.data_append]]
  cases hnd : name.data with
  | nil => simp
  | cons c cs =>
    have hc : c ≠ '/' := hname c (by rw [hnd]; exact List.mem_cons_self c cs)
    simp [hc]

theorem mem_takeWhile_pred {pr : Char → Bool} :
    ∀ (l : List Char) (c : Char), c ∈ l.takeWhile pr → pr c = true := by
  intro l
  induction l with
  | nil => intro c hc; cases hc
  | cons x xs ih =>
    intro c hc
    rw [List.takeWhile_cons] at hc
    by_cases hx : pr x
    · rw [if_pos hx] at hc
      rcases List.mem_cons.mp hc with h | h
      · rw [h]; exact hx
      · exact ih c h
    · rw [if_neg hx] at hc
      cases hc

theorem splitPath_tail_no_slash (p : String) :
    ∀ c ∈ (splitPath p).2.data, c ≠ '/' := by
  unfold splitPath
  simp only
  intro c hc
  rw [List.mem_reverse] at hc
  have h := mem_takeWhile_pred p.data.reverse c hc
  exact of_decide_eq_true h

theorem splitExt_fst_sub (f : String) :
    ∀ c ∈ (splitExt f).1.data, c ∈ f.data := by
  unfold splitExt
  simp only
  split
  · intro c hc; exact hc
  · split
    · intro c hc; exact List.take_subset _ _ hc
    · intro c hc; exact hc

theorem findUniqueAux_none_mem (fs : List String) (dir name ext : String) :
    ∀ fuel k, findUniqueAux fs dir name ext fuel k = none →
      ∀ j, k ≤ j → j < k + fuel → joinPath dir (candidateName name ext j) ∈ fs := by
  intro fuel
  induction fuel with
  | zero =>
    intro k _ j h1 h2
    omega
  | succ m ih =>
    intro k hnone j h1 h2
    simp only [findUniqueAux] at hnone
    by_cases hc : joinPath dir (candidateName name ext k) ∈ fs
    · rw [if_pos hc] at hnone
      by_cases hj : j = k
      · rw [hj]; exact hc
      · exact ih (k + 1) hnone j (by omega) (by omega)
    · rw [if_neg hc] at hnone
      cases hnone

theorem findUniqueAux_some_spec (fs : List String) (dir name ext : String) :
    ∀ fuel k r, findUniqueAux fs dir name ext fuel k = some r →
      ∃ j, k ≤ j ∧ r = joinPath dir (candidateName name ext j) ∧ r ∉ fs ∧
        ∀ i, k ≤ i → i < j → joinPath dir (candidateName name ext i) ∈ fs := by
  intro fuel
  induction fuel with
  | zero =>
    intro k r h
    cases h
  | succ m ih =>
    intro k r h
    simp only [findUniqueAux] at h
    by_cases hc : joinPath dir (candidateName name ext k) ∈ fs
    · rw [if_pos hc] at h
      obtain ⟨j, hj1, hj2, hj3, hj4⟩ := ih (k + 1) r h
      refine ⟨j, by omega, hj2, hj3, ?_⟩
      intro i hi1 hi2
      by_cases hik : i = k
      · rw [hik]; exact hc
      · exact hj4 i (by omega) hi2
    · rw [if_neg hc] at h
      injection h with h
      refine ⟨k, le_rfl, h.symm, by rw [← h]; exact hc, ?_⟩
      intro i hi1 hi2
      omega

theorem get_unique_filepath_total (fs : List String) (p : String) :
    get_unique_filepath fs p ≠ none := by
  unfold get_unique_filepath
  by_cases hp : p ∈ fs
  · rw [if_pos hp]
    intro hnone
    have hns : ∀ c ∈ (splitExt (splitPath p).2).1.data, c ≠ '/' := fun c hc =>
      splitPath_tail_no_slash p c (splitExt_fst_sub (splitPath p).2 c hc)
    have hmem := findUniqueAux_none_mem fs (splitPath p).1 (splitExt (splitPath p).2).1
      (splitExt (splitPath p).2).2 (fs.length + 1) 1 hnone
    have hinj : Function.Injective (fun t : Nat => joinPath (splitPath p).1
        (candidateName (splitExt (splitPath p).2).1 (splitExt (splitPath p).2).2 (1 + t))) := by
      intro a b hab
      have h1 := joinPath_inj (splitPath p).1
        (candidateName_head _ _ (1 + a) hns) (candidateName_head _ _ (1 + b) hns) hab
      have h2 := candidateName_inj _ _ h1
      omega
    have hnd : ((List.range (fs.length + 1)).map (fun t => joinPath (splitPath p).1
        (candidateName (splitExt (splitPath p).2).1 (splitExt (splitPath p).2).2
          (1 + t)))).Nodup :=
      List.Nodup.map hinj (List.nodup_range _)
    have hsub : ((List.range (fs.length + 1)).map (fun t => joinPath (splitPath p).1
        (candidateName (splitExt (splitPath p).2).1 (splitExt (splitPath p).2).2
          (1 + t)))) ⊆ fs := by
      intro x hx
      obtain ⟨t, ht, hxe⟩ := List.mem_map.mp hx
      rw [List.mem_range] at ht
      rw [← hxe]
      exact hmem (1 + t) (by omega) (by omega)
    have hle := (List.subperm_of_subset hnd hsub).length_le
    simp at hle
  · rw [if_neg hp]
    simp

/-- Claim C10: `get_unique_filepath` returns the desired path unchanged
when no file exists at it; otherwise it returns the variant built from
the same directory, the same base name and the same extension with the
zero-padded counter, for the smallest counter at least 1 whose path does
not exist; in every case it returns a path, and the returned path never
points to an existing file. -/
theorem get_unique_filepath_spec (fs : List String) (p : String) :
    (p ∉ fs → get_unique_filepath fs p = some p)
    ∧ (p ∈ fs → ∃ k, 1 ≤ k ∧
        get_unique_filepath fs p = some (joinPath (splitPath p).1
          (candidateName (splitExt (splitPath p).2).1 (splitExt (splitPath p).2).2 k))
        ∧ joinPath (splitPath p).1
            (candidateName (splitExt (splitPath p).2).1 (splitExt (splitPath p).2).2 k) ∉ fs
        ∧ (∀ j, 1 ≤ j → j < k →
            joinPath (splitPath p).1
              (candidateName (splitExt (splitPath p).2).1
                (splitExt (splitPath p).2).2 j) ∈ fs))
    ∧ get_unique_filepath fs p ≠ none
    ∧ (∀ r, get_unique_filepath fs p = some r → r ∉ fs) := by
  have hpart1 : p ∉ fs → get_unique_filepath fs p = some p := by
    intro hp
    unfold get_unique_filepath
    rw [if_neg hp]
  have hpart2 : p ∈ fs → ∃ k, 1 ≤ k ∧
      get_unique_filepath fs p = some (joinPath (splitPath p).1
        (candidateName (splitExt (splitPath p).2).1 (splitExt (splitPath p).2).2 k))
      ∧ joinPath (splitPath p).1
          (candidateName (splitExt (splitPath p).2).1 (splitExt (splitPath p).2).2 k) ∉ fs
      ∧ (∀ j, 1 ≤ j → j < k →
          joinPath (splitPath p).1
            (candidateName (splitExt (splitPath p).2).1
              (splitExt (splitPath p).2).2 j) ∈ fs) := by
    intro hp
    have heq : get_unique_filepath fs p = findUniqueAux fs (splitPath p).1
        (splitExt (splitPath p).2).1 (splitExt (splitPath p).2).2 (fs.length + 1) 1 := by
      unfold get_unique_filepath
      rw [if_pos hp]
    cases hval : findUniqueAux fs (splitPath p).1 (splitExt (splitPath p).2).1
        (splitExt (splitPath p).2).2 (fs.length + 1) 1 with
    | none =>
      exact absurd (heq.trans hval) (get_unique_filepath_total fs p)
    | some r =>
      obtain ⟨j, hj1, hj2, hj3, hj4⟩ :=
        findUniqueAux_some_spec fs (splitPath p).1 (splitExt (splitPath p).2).1
          (splitExt (splitPath p).2).2 (fs.length + 1) 1 r hval
      refine ⟨j, hj1, ?_, by rw [← hj2]; exact hj3, hj4⟩
      rw [heq, hval, hj2]
  refine ⟨hpart1, hpart2, get_unique_filepath_total fs p, ?_⟩
  intro r hr
  by_cases hp : p ∈ fs
  · obtain ⟨k, _, hk2, hk3, _⟩ := hpart2 hp
    rw [hr] at hk2
    injection hk2 with hk2
    rw [hk2]
    exact hk3
  · have := hpart1 hp
    rw [hr] at this
    injection this with hsame
    rw [hsame]
    exact hp

/-- Witness for C10: with `data.csv` and `data(001).csv` existing, the
desired path `data.csv` gets the first free counter. -/
theorem get_unique_filepath_spec_witness :
    ∃ k, 1 ≤ k ∧
      get_unique_filepath ["data.csv", "data(001).csv"] "data.csv" =
        some (joinPath (splitPath "data.csv").1
          (candidateName (splitExt (splitPath "data.csv").2).1
            (splitExt (splitPath "data.csv").2).2 k))
      ∧ joinPath (splitPath "data.csv").1
          (candidateName (splitExt (splitPath "data.csv").2).1
            (splitExt (splitPath "data.csv").2).2 k) ∉ ["data.csv", "data(001).csv"]
      ∧ (∀ j, 1 ≤ j → j < k →
          joinPath (splitPath "data.csv").1
            (candidateName (splitExt (splitPath "data.csv").2).1
              (splitExt (splitPath "data.csv").2).2 j) ∈
            ["data.csv", "data(001).csv"]) :=
  (get_unique_filepath_spec ["data.csv", "data(001).csv"] "data.csv").2.1 (by decide)

theorem isDigit_digitChar (k : Nat) (hk : k < 10) : (digitChar k).isDigit = true := by
  interval_cases k <;> rfl

theorem digitChar_ne_underscore (k : Nat) (hk : k < 10) : digitChar k ≠ '_' := by
  interval_cases k <;> decide

theorem natDigitsAux_small (n : Nat) (hn : n < 10) :
    ∀ fuel, natDigitsAux fuel n = [digitChar n] := by
  intro fuel
  cases fuel with
  | zero => rfl
  | succ m => rw [natDigitsAux, if_pos hn]

theorem natDigitsAux_two (n : Nat) (h1 : 10 ≤ n) (h2 : n ≤ 99) :
    ∀ fuel, 1 ≤ fuel →
      natDigitsAux fuel n = [digitChar (n / 10), digitChar (n % 10)] := by
  intro fuel hf
  obtain ⟨f1, rfl⟩ : ∃ f1, fuel = f1 + 1 := ⟨fuel - 1, by omega⟩
  rw [natDigitsAux, if_neg (by omega), natDigitsAux_small (n / 10) (by omega) f1]
  rfl

theorem natDigits_two {n : Nat} (h1 : 10 ≤ n) (h2 : n ≤ 99) :
    natDigits n = [digitChar (n / 10), digitChar (n % 10)] :=
  natDigitsAux_two n h1 h2 n (by omega)

theorem natDigitsAux_four (n : Nat) (h1 : 1000 ≤ n) (h2 : n ≤ 9999) :
    ∀ fuel, 3 ≤ fuel →
      natDigitsAux fuel n = [digitChar (n / 1000), digitChar (n / 100 % 10),
        digitChar (n / 10 % 10), digitChar (n % 10)] := by
  intro fuel hf
  obtain ⟨f3, rfl⟩ : ∃ f3, fuel = f3 + 3 := ⟨fuel - 3, by omega⟩
  have ha : f3 + 3 = f3 + 2 + 1 := by omega
  rw [ha, natDigitsAux, if_neg (by omega)]
  have hb : f3 + 2 = f3 + 1 + 1 := by omega
  rw [hb, natDigitsAux, if_neg (by omega)]
  rw [natDigitsAux, if_neg (by omega)]
  rw [natDigitsAux_small (n / 10 / 10 / 10) (by omega) f3]
  have e1 : n / 10 / 10 / 10 = n / 1000 := by omega
  have e2 : n / 10 / 10 % 10 = n / 100 % 10 := by omega
  rw [e1, e2]
  rfl

theorem natDigits_four {n : Nat} (h1 : 1000 ≤ n) (h2 : n ≤ 9999) :
    natDigits n = [digitChar (n / 1000), digitChar (n / 100 % 10),
      digitChar (n / 10 % 10), digitChar (n % 10)] :=
  natDigitsAux_four n h1 h2 n (by omega)

theorem pad2_shape (m : Nat) (hm : m ≤ 99) :
    ∃ a b, pad2 m = [a, b] ∧ a.isDigit = true ∧ b.isDigit = true ∧
      digitsVal [a, b] = m ∧ a ≠ '_' ∧ b ≠ '_' := by
  by_cases h : m < 10
  · refine ⟨'0', digitChar m, ?_, rfl, isDigit_digitChar m h, ?_, by decide,
      digitChar_ne_underscore m h⟩
    · unfold pad2
      rw [if_pos h]
    · show (0 * 10 + digVal '0') * 10 + digVal (digitChar m) = m
      rw [digVal_digitChar m h]
      have h0 : digVal '0' = 0 := rfl
      omega
  · refine ⟨digitChar (m / 10), digitChar (m % 10), ?_, isDigit_digitChar _ (by omega),
      isDigit_digitChar _ (by omega), ?_, digitChar_ne_underscore _ (by omega),
      digitChar_ne_underscore _ (by omega)⟩
    · unfold pad2
      rw [if_neg h, natDigits_two (by omega) hm]
    · show (0 * 10 + digVal (digitChar (m / 10))) * 10 + digVal (digitChar (m % 10)) = m
      rw [digVal_digitChar _ (by omega), digVal_digitChar _ (by omega)]
      omega

theorem fmtDate_shape (d : Date) (h1 : 1000 ≤ d.year) (h2 : d.year ≤ 9999)
    (hm : d.month ≤ 99) (hd : d.day ≤ 99) :
    ∃ y1 y2 y3 y4 a b c e,
      (fmtDate d).data = [y1, y2, y3, y4, '-', a, b, '-', c, e]
      ∧ y1.isDigit = true ∧ y2.isDigit = true ∧ y3.isDigit = true ∧ y4.isDigit = true
      ∧ a.isDigit = true ∧ b.isDigit = true ∧ c.isDigit = true ∧ e.isDigit = true
      ∧ digitsVal [y1, y2, y3, y4] = d.year
      ∧ digitsVal [a, b] = d.month ∧ digitsVal [c, e] = d.day := by
  obtain ⟨a, b, hab, ha, hb, hvab, _, _⟩ := pad2_shape d.month hm
  obtain ⟨c, e, hce, hc, he, hvce, _, _⟩ := pad2_shape d.day hd
  refine ⟨digitChar (d.year / 1000), digitChar (d.year / 100 % 10),
    digitChar (d.year / 10 % 10), digitChar (d.year % 10), a, b, c, e, ?_,
    isDigit_digitChar _ (by omega), isDigit_digitChar _ (by omega),
    isDigit_digitChar _ (by omega), isDigit_digitChar _ (by omega),
    ha, hb, hc, he, ?_, hvab, hvce⟩
  · show (natDigits d.year ++ '-' :: (pad2 d.month ++ '-' :: pad2 d.day)) = _
    rw [natDigits_four h1 h2, hab, hce]
    rfl
  · show (((0 * 10 + digVal (digitChar (d.year / 1000))) * 10 +
      digVal (digitChar (d.year / 100 % 10))) * 10 +
      digVal (digitChar (d.year / 10 % 10))) * 10 + digVal (digitChar (d.year % 10)) = d.year
    rw [digVal_digitChar _ (by omega), digVal_digitChar _ (by omega),
      digVal_digitChar _ (by omega), digVal_digitChar _ (by omega)]
    omega

theorem matchDate_fmt (d : Date) (h1 : 1000 ≤ d.year) (h2 : d.year ≤ 9999)
    (hm : d.month ≤ 99) (hd : d.day ≤ 99) (rest : List Char) :
    matchDate ((fmtDate d).data ++ rest) = some (fmtDate d, rest) := by
  obtain ⟨y1, y2, y3, y4, a, b, c, e, hdata, hy1, hy2, hy3, hy4, ha, hb, hc, he, _, _, _⟩ :=
    fmtDate_shape d h1 h2 hm hd
  have hstr : fmtDate d = ⟨[y1, y2, y3, y4, '-', a, b, '-', c, e]⟩ := String.ext hdata
  rw [hdata, hstr]
  show matchDate (y1 :: y2 :: y3 :: y4 :: '-' :: a :: b :: '-' :: c :: e :: rest) = _
  rw [matchDate, if_pos ⟨rfl, rfl, hy1, hy2, hy3, hy4, ha, hb, hc, he⟩]

theorem parseDateStr_fmtDate (d : Date) (hv : d.Valid)
    (h1 : 1000 ≤ d.year) (h2 : d.year ≤ 9999) :
    parseDateStr (fmtDate d) = some d := by
  have hm99 : d.month ≤ 99 := by have := hv.2.1; omega
  have hd99 : d.day ≤ 99 := by
    have ha := daysInMonth_le d.year d.month
    have := hv.2.2.2
    omega
  obtain ⟨y1, y2, y3, y4, a, b, c, e, hdata, hy1, hy2, hy3, hy4, ha, hb, hc, he,
    hvy, hvm, hvd⟩ := fmtDate_shape d h1 h2 hm99 hd99
  have hstr : fmtDate d = ⟨[y1, y2, y3, y4, '-', a, b, '-', c, e]⟩ := String.ext hdata
  rw [hstr]
  show (if ('-' = '-' ∧ '-' = '-' ∧ y1.isDigit ∧ y2.isDigit ∧ y3.isDigit ∧ y4.isDigit ∧
      a.isDigit ∧ b.isDigit ∧ c.isDigit ∧ e.isDigit) then
    (if 1 ≤ digitsVal [y1, y2, y3, y4] ∧
        (⟨digitsVal [y1, y2, y3, y4], digitsVal [a, b], digitsVal [c, e]⟩ : Date).Valid then
      some ⟨digitsVal [y1, y2, y3, y4], digitsVal [a, b], digitsVal [c, e]⟩
    else none)
  else none) = some d
  rw [if_pos ⟨rfl, rfl, hy1, hy2, hy3, hy4, ha, hb, hc, he⟩]
  rw [hvy, hvm, hvd]
  have heta : (⟨d.year, d.month, d.day⟩ : Date) = d := rfl
  rw [heta, if_pos ⟨by omega, hv⟩]

theorem matchTail_build (d1s d2s : String) (ext : String)
    (hd1 : ∀ rest, matchDate (d1s.data ++ rest) = some (d1s, rest))
    (hd2 : ∀ rest, matchDate (d2s.data ++ rest) = some (d2s, rest))
    (hext : ext = ".parquet" ∨ ext = ".csv") :
    matchTail (d1s.data ++ '_' :: 't' :: 'o' :: '_' :: (d2s.data ++ ext.data)) =
      some (d1s, d2s, if ext = ".parquet" then "parquet" else "csv") := by
  unfold matchTail
  rw [hd1 ('_' :: 't' :: 'o' :: '_' :: (d2s.data ++ ext.data))]
  dsimp only
  rw [show dropLit ['_', 't', 'o', '_'] ('_' :: 't' :: 'o' :: '_' :: (d2s.data ++ ext.data)) =
    some (d2s.data ++ ext.data) from rfl]
  dsimp only
  rw [hd2 ext.data]
  dsimp only
  rcases hext with h | h
  · rw [h]
    show (match ('.' :: 'p' :: 'a' :: 'r' :: 'q' :: 'u' :: 'e' :: 't' :: ([] : List Char)) with
      | '.' :: r4 =>
        if startsWithL ['p', 'a', 'r', 'q', 'u', 'e', 't'] r4 then some (d1s, d2s, "parquet")
        else if startsWithL ['c', 's', 'v'] r4 then some (d1s, d2s, "csv")
        else none
      | _ => none) = some (d1s, d2s, if (".parquet" : String) = ".parquet" then "parquet" else "csv")
    rw [if_pos rfl]
    rfl
  · rw [h]
    show (match ('.' :: 'c' :: 's' :: 'v' :: ([] : List Char)) with
      | '.' :: r4 =>
        if startsWithL ['p', 'a', 'r', 'q', 'u', 'e', 't'] r4 then some (d1s, d2s, "parquet")
        else if startsWithL ['c', 's', 'v'] r4 then some (d1s, d2s, "csv")
        else none
      | _ => none) = some (d1s, d2s, if (".csv" : String) = ".parquet" then "parquet" else "csv")
    rw [if_neg (by decide)]
    rfl

theorem scanG2_through :
    ∀ (cs acc rest : List Char) (r : String × String × String),
      (∀ c ∈ cs, c ≠ '_') → (∀ c ∈ cs, c ≠ '\n') →
      acc.reverse ++ cs ≠ [] → matchTail rest = some r →
      scanG2 acc (cs ++ '_' :: rest) = some (⟨acc.reverse ++ cs⟩, r) := by
  intro cs
  induction cs with
  | nil =>
    intro acc rest r _ _ hne hmt
    obtain ⟨d1, d2, ex⟩ := r
    show scanG2 acc ('_' :: rest) = _
    rw [scanG2, if_pos rfl]
    have hacc : ¬ (acc.isEmpty = true) := by
      simp only [List.append_nil] at hne
      simp [List.isEmpty_iff]
      intro hc
      rw [hc] at hne
      simp at hne
    rw [if_neg hacc, hmt]
    dsimp only
    simp
  | cons c0 cs' ih =>
    intro acc rest r hno hnl hne hmt
    have hc0 : c0 ≠ '_' := hno c0 (List.mem_cons_self _ _)
    have hl0 : c0 ≠ '\n' := hnl c0 (List.mem_cons_self _ _)
    show scanG2 acc (c0 :: (cs' ++ '_' :: rest)) = _
    rw [scanG2, if_neg hc0, if_neg hl0]
    rw [ih (c0 :: acc) rest r (fun c hc => hno c (List.mem_cons_of_mem _ hc))
      (fun c hc => hnl c (List.mem_cons_of_mem _ hc)) (by simp) hmt]
    simp

theorem scanG1_through :
    ∀ (cs acc rest : List Char) (r : String × String × String × String),
      (∀ c ∈ cs, c ≠ '_') → (∀ c ∈ cs, c ≠ '\n') →
      acc.reverse ++ cs ≠ [] → scanG2 [] rest = some r →
      scanG1 acc (cs ++ '_' :: rest) = some (⟨acc.reverse ++ cs⟩, r) := by
  intro cs
  induction cs with
  | nil =>
    intro acc rest r _ _ hne hsc
    obtain ⟨g2, d1, d2, ex⟩ := r
    show scanG1 acc ('_' :: rest) = _
    rw [scanG1, if_pos rfl]
    have hacc : ¬ (acc.isEmpty = true) := by
      simp only [List.append_nil] at hne
      simp [List.isEmpty_iff]
      intro hc
      rw [hc] at hne
      simp at hne
    rw [if_neg hacc, hsc]
    dsimp only
    simp
  | cons c0 cs' ih =>
    intro acc rest r hno hnl hne hsc
    have hc0 : c0 ≠ '_' := hno c0 (List.mem_cons_self _ _)
    have hl0 : c0 ≠ '\n' := hnl c0 (List.mem_cons_self _ _)
    show scanG1 acc (c0 :: (cs' ++ '_' :: rest)) = _
    rw [scanG1, if_neg hc0, if_neg hl0]
    rw [ih (c0 :: acc) rest r (fun c hc => hno c (List.mem_cons_of_mem _ hc))
      (fun c hc => hnl c (List.mem_cons_of_mem _ hc)) (by simp) hsc]
    simp

/-- Claim C5 as amended: for every ticker and fidelity-folder string
that are nonempty and carry no underscore and no newline (the lazy
groups are runs of the dot of the pattern, which matches any character
except a newline), every pair of valid dates with four-digit years and
`start <= end`, and either permitted extension, formatting the
partition filename and parsing it with the partition pattern recovers
exactly the original four fields: the two lazy groups yield the ticker
and the fidelity verbatim, and the two date groups parse back (via
strptime) to the original dates.  (As stated, with no restriction on
the ticker, the claim fails: the lazy groups split at the first
underscores, see the counterexample.) -/
theorem partition_filename_roundtrip (ticker fid : String) (s e : Date) (ext : String)
    (htne : ticker.data ≠ []) (hfne : fid.data ≠ [])
    (htnu : ∀ c ∈ ticker.data, c ≠ '_') (hfnu : ∀ c ∈ fid.data, c ≠ '_')
    (htnl : ∀ c ∈ ticker.data, c ≠ '\n') (hfnl : ∀ c ∈ fid.data, c ≠ '\n')
    (hsv : s.Valid) (hev : e.Valid)
    (hs1 : 1000 ≤ s.year) (hs2 : s.year ≤ 9999)
    (he1 : 1000 ≤ e.year) (he2 : e.year ≤ 9999)
    (_hse : s.key ≤ e.key)
    (hext : ext = ".parquet" ∨ ext = ".csv") :
    parsePartitionFilename (partitionFilename ticker fid s e ext) =
      some (ticker, fid, fmtDate s, fmtDate e,
        if ext = ".parquet" then "parquet" else "csv")
    ∧ parseDateStr (fmtDate s) = some s ∧ parseDateStr (fmtDate e) = some e := by
  have hsm : s.month ≤ 99 := by have := hsv.2.1; omega
  have hsd : s.day ≤ 99 := by
    have := daysInMonth_le s.year s.month
    have := hsv.2.2.2
    omega
  have hem : e.month ≤ 99 := by have := hev.2.1; omega
  have hed : e.day ≤ 99 := by
    have := daysInMonth_le e.year e.month
    have := hev.2.2.2
    omega
  have hmt := matchTail_build (fmtDate s) (fmtDate e) ext
    (matchDate_fmt s hs1 hs2 hsm hsd) (matchDate_fmt e he1 he2 hem hed) hext
  have hsc2 : scanG2 [] (fid.data ++ '_' ::
      ((fmtDate s).data ++ '_' :: 't' :: 'o' :: '_' :: ((fmtDate e).data ++ ext.data))) =
      some (fid, fmtDate s, fmtDate e,
        if ext = ".parquet" then "parquet" else "csv") := by
    have h := scanG2_through fid.data []
      ((fmtDate s).data ++ '_' :: 't' :: 'o' :: '_' :: ((fmtDate e).data ++ ext.data))
      (fmtDate s, fmtDate e, if ext = ".parquet" then "parquet" else "csv")
      hfnu hfnl (by simpa using hfne) hmt
    simpa using h
  have hsc1 : scanG1 [] (ticker.data ++ '_' :: (fid.data ++ '_' ::
      ((fmtDate s).data ++ '_' :: 't' :: 'o' :: '_' :: ((fmtDate e).data ++ ext.data)))) =
      some (ticker, fid, fmtDate s, fmtDate e,
        if ext = ".parquet" then "parquet" else "csv") := by
    have h := scanG1_through ticker.data []
      (fid.data ++ '_' ::
        ((fmtDate s).data ++ '_' :: 't' :: 'o' :: '_' :: ((fmtDate e).data ++ ext.data)))
      (fid, fmtDate s, fmtDate e, if ext = ".parquet" then "parquet" else "csv")
      htnu htnl (by simpa using htne) hsc2
    simpa using h
  refine ⟨?_, parseDateStr_fmtDate s hsv hs1 hs2, parseDateStr_fmtDate e hev he1 he2⟩
  have hdata : (partitionFilename ticker fid s e ext).data =
      ticker.data ++ '_' :: (fid.data ++ '_' ::
        ((fmtDate s).data ++ '_' :: 't' :: 'o' :: '_' :: ((fmtDate e).data ++ ext.data))) := by
    unfold partitionFilename
    simp [String.data_append]
  unfold parsePartitionFilename
  rw [hdata]
  exact hsc1

/-- Witness for C5: a concrete underscore-free round trip. -/
theorem partition_filename_roundtrip_witness :
    parsePartitionFilename
        (partitionFilename "ABC" "1-minute" ⟨2024, 1, 1⟩ ⟨2024, 1, 31⟩ ".csv") =
      some ("ABC", "1-minute", fmtDate ⟨2024, 1, 1⟩, fmtDate ⟨2024, 1, 31⟩,
        if (".csv" : String) = ".parquet" then "parquet" else "csv")
    ∧ parseDateStr (fmtDate ⟨2024, 1, 1⟩) = some ⟨2024, 1, 1⟩
    ∧ parseDateStr (fmtDate ⟨2024, 1, 31⟩) = some ⟨2024, 1, 31⟩ :=
  partition_filename_roundtrip "ABC" "1-minute" ⟨2024, 1, 1⟩ ⟨2024, 1, 31⟩ ".csv"
    (by decide) (by decide) (by decide) (by decide) (by decide) (by decide)
    (by decide) (by decide) (by decide) (by decide) (by decide) (by decide)
    (by decide) (Or.inr rfl)

/-- Counterexample to claim C5 as stated: for the ticker `A_B` (an
underscore in the ticker) the lazy groups split at the first
underscores, so parsing the formatted filename yields ticker `A` and
fidelity `B_1-minute` instead of the original fields. -/
theorem partition_filename_roundtrip_counterexample :
    parsePartitionFilename
        (partitionFilename "A_B" "1-minute" ⟨2024, 1, 1⟩ ⟨2024, 1, 31⟩ ".csv") =
      some ("A", "B_1-minute", "2024-01-01", "2024-01-31", "csv")
    ∧ parsePartitionFilename
        (partitionFilename "A_B" "1-minute" ⟨2024, 1, 1⟩ ⟨2024, 1, 31⟩ ".csv") ≠
      some ("A_B", "1-minute", "2024-01-01", "2024-01-31", "csv") := by
  decide
